import Mathlib

/-!
# SingleInclude: a shallow embedding of `src/main.cpp`

This file embeds the include-expansion engine of SingleInclude (the
function `parse_include` of `main.cpp`, together with the directive
regexes, the line-reading loop and the surrounding run logic) as
executable Lean definitions, and proves the specification claims about
it.

Strings are modelled as `List Char` (written `Str`), file system access
as an abstract `FSys` record (`is_regular_file`, `fs::canonical` and
opening a file for reading), and the recursion of `parse_include` is
made total with an explicit fuel argument: `PIRes.nofuel` marks fuel
exhaustion and never occurs for sufficient fuel when `include_all` is
off (proved below).
-/

namespace SingleInclude

/-- Strings of the C++ program, modelled as lists of characters. -/
abbrev Str := List Char

/-! ## Character classes

`isSpaceC` is the character class of both the ECMAScript regex class
`\s` used in `regex_include` and C `isspace` used by the token
extraction loop (lines 317 and 321 of `main.cpp`): space, tab, newline,
vertical tab, form feed, carriage return.

`isDotChar` is the ECMAScript regex `.`: any character other than a
line terminator (`\n`, `\r`). -/

def isSpaceC (c : Char) : Bool :=
  c == ' ' || c == '\t' || c == '\n' || c == '\x0b' || c == '\x0c' || c == '\r'

def isDotChar (c : Char) : Bool :=
  !(c == '\n' || c == '\r')

/-! ## The directive scanner (lines 89-90 of `main.cpp`)

`regex_include  = ^\s*#\s*include\s*(<.*>|".*")\s*$`
`regex_system_include = ^\s*#\s*include\s*<.*>\s*$`

Both regexes share the prefix `^\s*#\s*include\s*`; each piece of the
pattern is deterministic (`\s*` is always followed by a character that
is not in `\s`), so matching is implemented by direct scanning. -/

/-- Strip a literal off the front of a string: `some r` iff the input
is the literal followed by `r`. -/
def stripLit : Str → Str → Option Str
  | [], r => some r
  | _ :: _, [] => none
  | l :: ls, c :: cs => if c = l then stripLit ls cs else none

def includeWord : Str := 'i' :: 'n' :: 'c' :: 'l' :: 'u' :: 'd' :: 'e' :: []

/-- Scan `\s*#\s*include\s*` and return the rest of the line. -/
def includeDirRest (cs : Str) : Option Str :=
  match cs.dropWhile isSpaceC with
  | [] => none
  | c :: r1 =>
    if c = '#' then
      match stripLit includeWord (r1.dropWhile isSpaceC) with
      | none => none
      | some r2 => some (r2.dropWhile isSpaceC)
    else none

/-- Match `.*c\s*$` where `c` is the closing delimiter: the string,
after its trailing whitespace is removed, must end with `c`, and the
part before `c` may contain no line terminator (regex `.`). -/
def matchTail (close : Char) (r : Str) : Bool :=
  match r.reverse.dropWhile isSpaceC with
  | [] => false
  | c :: t => if c = close then t.all isDotChar else false

/-- `regex_match(line, regex_include)` (line 89 of `main.cpp`). -/
def regexIncludeMatchL (cs : Str) : Bool :=
  match includeDirRest cs with
  | none => false
  | some [] => false
  | some (c :: r) =>
    if c = '<' then matchTail '>' r
    else if c = '"' then matchTail '"' r
    else false

/-- `regex_match(line, regex_system_include)` (line 90 of `main.cpp`). -/
def regexSystemMatchL (cs : Str) : Bool :=
  match includeDirRest cs with
  | none => false
  | some [] => false
  | some (c :: r) =>
    if c = '<' then matchTail '>' r
    else false

/-! ## Token extraction (lines 312-324 of `main.cpp`)

```cpp
auto it1 = line.begin();
while(*it1 != '<' && *it1 != '"') ++it1;
++it1;
while(isspace(*it1)) ++it1;
auto it2 = it1;
while(*it2 != '>' && *it2 != '"' && !isspace(*it2)) ++it2;
includeFile.assign(it1, it2);
```
-/

def extractToken (cs : Str) : Str :=
  let r1 := cs.dropWhile (fun c => !(c == '<' || c == '"'))
  let r2 := (r1.drop 1).dropWhile isSpaceC
  r2.takeWhile (fun c => !(c == '>' || c == '"' || isSpaceC c))

/-! ## The line-reading loop (lines 303-307 of `main.cpp`)

```cpp
while(!fin.eof()) { getline(fin, line); ... }
```

`getlineAux` models one `std::getline` call on the remaining stream
contents: it returns the extracted line, the rest of the stream, and
whether the eof bit was set (it is set exactly when the end of the
stream is reached before a `\n` delimiter).  `readLines` models the
whole loop: the eof bit starts unset even on an empty file, so at least
one line is always extracted. -/

def getlineAux : Str → (Str × Str × Bool)
  | [] => ([], [], true)
  | c :: r =>
    if c = '\n' then ([], r, false)
    else
      let g := getlineAux r
      (c :: g.1, g.2.1, g.2.2)

def readLinesGo : Nat → Str → List Str
  | 0, _ => []
  | Nat.succ n, cs =>
    let g := getlineAux cs
    g.1 :: (if g.2.2 then [] else readLinesGo n g.2.1)

/-- All lines processed by the `while(!fin.eof())` loop for a file with
contents `cs`.  One `\n` is consumed per extracted line, so
`cs.length + 1` fuel always suffices (proved by `readLines_eq_split`). -/
def readLines (cs : Str) : List Str := readLinesGo (cs.length + 1) cs

/-- Reference shape of the line list: split on `\n`. -/
def splitLines : Str → List Str
  | [] => [[]]
  | c :: r =>
    if c = '\n' then [] :: splitLines r
    else (c :: (splitLines r).headI) :: (splitLines r).tail

/-! ## Paths -/

/-- `fs::path::parent_path`: everything before the last separator. -/
def parentPath (p : Str) : Str :=
  match p.reverse.dropWhile (fun c => !(c == '/')) with
  | [] => []
  | _ :: t => t.reverse

/-- `fs::path::operator/`: join with a separator (line 330,
`p / includeFile`). -/
def joinPath (d f : Str) : Str := d ++ '/' :: f

/-! ## Data model (`error_type`, `include_state_t`, `file_t`, `state_t`) -/

inductive error_type where
  | E_NO_ERROR
  | E_TOO_LESS_ARGUMENTS
  | E_FILE_NOT_EXIST
  | E_DIR_NOT_EXIST
  | E_UNKNOWN_OPTION
  | E_TOO_MANY_INPUT
  | E_FILE_ERROR
  | E_FINISH
  deriving DecidableEq

structure error_state where
  e : error_type
  w : Str
  deriving DecidableEq

inductive include_state_t where
  | I_EXPENDED
  | I_ALREADY_INCLUDED
  | I_NOT_FOUND
  deriving DecidableEq

/-- `file_t`: one node of the dependency tree. -/
inductive file_t where
  | mk (name : Str) (includeFiles : List file_t) (state : include_state_t) (is_angle : Bool)

def file_t.name : file_t → Str
  | .mk n _ _ _ => n

def file_t.includeFiles : file_t → List file_t
  | .mk _ k _ _ => k

def file_t.state : file_t → include_state_t
  | .mk _ _ s _ => s

def file_t.is_angle : file_t → Bool
  | .mk _ _ _ a => a

/-- The pieces of `state_t` that `parse_include` reads and writes:
the search-path list and the set of already-included canonical paths.
The `std::set` is modelled as a duplicate-free insertion list; only
membership is observed. -/
structure Config where
  includePaths : List Str
  includedFiles : List Str
  deriving DecidableEq

/-- `std::set::insert`: add if not present. -/
def insertSet (l : List Str) (x : Str) : List Str :=
  if x ∈ l then l else l ++ [x]

/-! ## The file system

`isFile` models `fs::is_regular_file`, `canon` models `fs::canonical`
(on paths for which `isFile` holds), and `readF` models opening the
file for reading: `none` means `fin.is_open()` is false. -/

structure FSys where
  isFile : Str → Bool
  canon : Str → Str
  readF : Str → Option Str

/-! ## `parse_include` (lines 289-367 of `main.cpp`)

The recursion is split into three functions:

* `processDirs` is the `for(auto& p : search_paths)` loop of lines
  329-347 for one directive, threading the state, the node list of the
  enclosing file, the `content` accumulator, the `found` flag, and the
  state and child list of the `temp` node.  `temp` is declared once per
  directive (line 308) and reused across the loop: its `includeFiles`
  list is never cleared, so when a directive matches in two candidate
  directories the node pushed for the second match still carries the
  children the first match's recursion appended (`tempKids` models
  this); when no directory matched, `temp.includeFiles` is still empty
  and the pushed `I_NOT_FOUND` node is a leaf;
* `processLines` is the `while(!fin.eof())` loop of lines 303-364;
* `parseIncludeF` is `parse_include` itself, with a fuel argument that
  decreases at each recursive self-call.

`rootName` is `config.file.name`, the root input file recorded by
`parse_config`; line 293 uses it (not `file.name`) in the error
message. -/

inductive PIRes where
  | ok (cfg : Config) (file : file_t) (out : Str)
  | err (e : error_state)
  | nofuel

inductive DRes where
  | ok (cfg : Config) (kids : List file_t) (content : Str) (found : Bool)
      (lastSt : include_state_t) (tempKids : List file_t)
  | err (e : error_state)
  | nofuel

inductive LRes where
  | ok (cfg : Config) (kids : List file_t) (out : Str)
  | err (e : error_state)
  | nofuel

def processDirs (rec : Config → file_t → Str → PIRes) (fsys : FSys) (ia : Bool)
    (tok : Str) (ang : Bool) :
    List Str → Config → List file_t → Str → Bool → include_state_t → List file_t → DRes
  | [], cfg, kids, content, found, lastSt, tempKids => .ok cfg kids content found lastSt tempKids
  | p :: ps, cfg, kids, content, found, lastSt, tempKids =>
    if fsys.isFile (joinPath p tok) then
      if ia = false ∧ fsys.canon (joinPath p tok) ∈ cfg.includedFiles then
        processDirs rec fsys ia tok ang ps cfg
          (kids ++ [file_t.mk (fsys.canon (joinPath p tok)) tempKids .I_ALREADY_INCLUDED ang])
          content true .I_ALREADY_INCLUDED tempKids
      else
        match rec cfg (file_t.mk (fsys.canon (joinPath p tok)) tempKids .I_EXPENDED ang) content with
        | .ok cfg' temp' content' =>
          processDirs rec fsys ia tok ang ps cfg' (kids ++ [temp']) content' true .I_EXPENDED
            temp'.includeFiles
        | .err e => .err e
        | .nofuel => .nofuel
    else
      processDirs rec fsys ia tok ang ps cfg kids content found lastSt tempKids

def commentBegin (line : Str) : Str := "// ".toList ++ line ++ ['\n']

def commentEnd (line : Str) : Str := "// End ".toList ++ line ++ ['\n']

def omitComment (line : Str) : Str :=
  "// ".toList ++ line ++ " (omitted because it has been expended)\n".toList

def processLines (rec : Config → file_t → Str → PIRes) (fsys : FSys) (ia : Bool)
    (sp : List Str) :
    List Str → Config → List file_t → Str → LRes
  | [], cfg, kids, out => .ok cfg kids out
  | line :: rest, cfg, kids, out =>
    if regexIncludeMatchL line = false then
      processLines rec fsys ia sp rest cfg kids (out ++ line ++ ['\n'])
    else
      match processDirs rec fsys ia (extractToken line) (regexSystemMatchL line)
          sp cfg kids [] false .I_EXPENDED [] with
      | .err e => .err e
      | .nofuel => .nofuel
      | .ok cfg' kids' content found lastSt tempKids' =>
        if found = false then
          processLines rec fsys ia sp rest cfg'
            (kids' ++ [file_t.mk (extractToken line) tempKids' .I_NOT_FOUND (regexSystemMatchL line)])
            (out ++ line ++ ['\n'])
        else if lastSt = .I_EXPENDED then
          processLines rec fsys ia sp rest cfg' kids'
            (out ++ commentBegin line ++ content ++ commentEnd line)
        else
          processLines rec fsys ia sp rest cfg' kids' (out ++ omitComment line)

/-- Candidate directory list for the file being scanned (lines 298-302
of `main.cpp`): the caller-supplied include paths, with the directory
containing the file prepended when the file was not angle-included. -/
def searchPathsOf (cfg : Config) (file : file_t) : List Str :=
  if file.is_angle then cfg.includePaths
  else parentPath file.name :: cfg.includePaths

def parseIncludeF (fsys : FSys) (ia : Bool) (rootName : Str) :
    Nat → Config → file_t → Str → PIRes
  | 0, _, _, _ => .nofuel
  | Nat.succ n, cfg, file, out =>
    match fsys.readF file.name with
    | none => .err ⟨.E_FILE_ERROR, "Cannot open file ".toList ++ rootName⟩
    | some content =>
      match processLines (fun c f o => parseIncludeF fsys ia rootName n c f o) fsys ia
          (searchPathsOf cfg file) (readLines content)
          { cfg with includedFiles := insertSet cfg.includedFiles file.name }
          file.includeFiles out with
      | .ok cfg' kids' out' => .ok cfg' (file_t.mk file.name kids' file.state file.is_angle) out'
      | .err e => .err e
      | .nofuel => .nofuel

/-- The fixed banner prepended by `main` (line 91 of `main.cpp`). -/
def headerText : Str :=
  ("// This file is generated automatically by SingleInclude\n" ++
   "// It's suggested not to edit anything below\n" ++
   "// If you found any issue, please report to https://github.com/dragon-archer/SingleInclude/issues\n").toList

/-- The run as `main` drives it (lines 402-423): start from the banner,
expand the root, and produce the assembled text only on success —
on any error nothing is written. -/
def runSingleInclude (fsys : FSys) (ia : Bool) (incPaths : List Str) (rootPath : Str)
    (fuel : Nat) : Option Str :=
  match parseIncludeF fsys ia rootPath fuel ⟨incPaths, []⟩
      (file_t.mk rootPath [] .I_EXPENDED false) headerText with
  | .ok _ _ out => some out
  | _ => none

/-! ## Generic list lemmas -/

theorem dropWhile_append_all {α} (p : α → Bool) (w l : List α)
    (hw : ∀ c ∈ w, p c = true) : (w ++ l).dropWhile p = l.dropWhile p := by
  induction w with
  | nil => rfl
  | cons c w ih =>
    have hc : p c = true := hw c (List.mem_cons_self c w)
    simp only [List.cons_append, List.dropWhile_cons, hc, if_true]
    exact ih fun x hx => hw x (List.mem_cons_of_mem _ hx)

theorem dropWhile_cons_false {α} (p : α → Bool) (c : α) (l : List α) (hc : p c = false) :
    (c :: l).dropWhile p = c :: l := by
  simp [List.dropWhile_cons, hc]

theorem mem_takeWhile_pred {α} (p : α → Bool) (l : List α) :
    ∀ x ∈ l.takeWhile p, p x = true := by
  intro x hx
  exact List.mem_takeWhile_imp hx

/-! ## `insertSet` lemmas -/

theorem mem_insertSet_self (l : List Str) (x : Str) : x ∈ insertSet l x := by
  unfold insertSet
  split
  · assumption
  · simp

theorem mem_insertSet_of_mem (l : List Str) (x y : Str) (h : y ∈ l) : y ∈ insertSet l x := by
  unfold insertSet
  split
  · exact h
  · simp [h]

theorem mem_insertSet_iff (l : List Str) (x y : Str) :
    y ∈ insertSet l x ↔ y ∈ l ∨ y = x := by
  unfold insertSet
  split
  · rename_i hx
    constructor
    · exact fun h => Or.inl h
    · rintro (h | rfl)
      · exact h
      · exact hx
  · simp

/-! ## Line splitting -/

theorem splitLines_ne_nil (cs : Str) : splitLines cs ≠ [] := by
  cases cs with
  | nil => simp [splitLines]
  | cons c r =>
    unfold splitLines
    split <;> simp

theorem readLinesGo_eq_split (cs : Str) : ∀ n, cs.length < n → readLinesGo n cs = splitLines cs := by
  induction cs with
  | nil =>
    intro n hn
    match n, hn with
    | n + 1, _ => simp [readLinesGo, getlineAux, splitLines]
  | cons c r ih =>
    intro n hn
    match n, hn with
    | m + 1, hn =>
      by_cases hc : c = '\n'
      · subst hc
        have hr : r.length < m := by simpa using hn
        simp [readLinesGo, getlineAux, splitLines, ih m hr]
      · have h1 : readLinesGo (m + 1) (c :: r) =
            (c :: (getlineAux r).1) ::
              (if (getlineAux r).2.2 then [] else readLinesGo m (getlineAux r).2.1) := by
          simp [readLinesGo, getlineAux, hc]
        have h2 : readLinesGo (m + 1) r =
            (getlineAux r).1 ::
              (if (getlineAux r).2.2 then [] else readLinesGo m (getlineAux r).2.1) := by
          simp [readLinesGo]
        have hr : r.length < m + 1 := by
          have := hn
          simp at this
          omega
        rw [ih (m + 1) hr] at h2
        rw [h1]
        unfold splitLines
        rw [if_neg hc, h2]
        simp

theorem readLines_eq_split (cs : Str) : readLines cs = splitLines cs :=
  readLinesGo_eq_split cs (cs.length + 1) (Nat.lt_succ_self _)

theorem splitLines_append_newline (xs : Str) :
    splitLines (xs ++ ['\n']) = splitLines xs ++ [[]] := by
  induction xs with
  | nil => simp [splitLines]
  | cons c r ih =>
    by_cases hc : c = '\n'
    · subst hc
      simp [splitLines, ih]
    · have hne := splitLines_ne_nil r
      have hstep : splitLines (c :: r ++ ['\n']) =
          (c :: (splitLines (r ++ ['\n'])).headI) :: (splitLines (r ++ ['\n'])).tail := by
        simp [splitLines, hc]
      rw [hstep, ih]
      cases h : splitLines r with
      | nil => exact absurd h hne
      | cons l ls => simp [splitLines, hc, h]

theorem splitLines_length (cs : Str) : (splitLines cs).length = cs.count '\n' + 1 := by
  induction cs with
  | nil => simp [splitLines]
  | cons c r ih =>
    by_cases hc : c = '\n'
    · subst hc
      simp [splitLines, ih, List.count_cons]
    · have hne := splitLines_ne_nil r
      cases h : splitLines r with
      | nil => exact absurd h hne
      | cons l ls =>
        rw [h] at ih
        have hcount : (c :: r).count '\n' = r.count '\n' := by
          simp [List.count_cons, hc]
        simp only [splitLines, if_neg hc, h, hcount, List.headI, List.tail, List.length_cons]
        simp only [List.length_cons] at ih
        omega

/-! ## The spec-side directive grammar

These definitions follow the wording of spec §4.1: a line is an include
directive iff, ignoring leading/trailing whitespace, it has the form
`# include <token>` or `# include "token"` with arbitrary whitespace
allowed around the `#`, around `include` and around the delimiters, and
nothing else on the line.  The text between the delimiters is
arbitrary; a line holds no line terminator inside it (`getline` strips
`\n`, and a carriage return is a line terminator for the regex dot as
well). -/

def WsList (l : Str) : Prop := ∀ c ∈ l, isSpaceC c = true

def TokText (l : Str) : Prop := ∀ c ∈ l, c ≠ '\n' ∧ c ≠ '\r'

instance wsListDecidable (l : Str) : Decidable (WsList l) :=
  List.decidableBAll (fun c => isSpaceC c = true) l

instance tokTextDecidable (l : Str) : Decidable (TokText l) :=
  List.decidableBAll (fun c => c ≠ '\n' ∧ c ≠ '\r') l

def delimOpen (ang : Bool) : Char := if ang then '<' else '"'

def delimClose (ang : Bool) : Char := if ang then '>' else '"'

/-- Modelled from the spec, §4.1 matching rule: the shape
`ws* # ws* include ws* ⟨open⟩ token ⟨close⟩ ws*` covering the whole
line, with matching angle or quote delimiters. -/
def specIncludeShape (cs : Str) : Prop :=
  ∃ (ang : Bool) (w1 w2 w3 mid w4 : Str),
    cs = w1 ++ '#' :: (w2 ++ (includeWord ++ (w3 ++ delimOpen ang :: (mid ++ delimClose ang :: w4)))) ∧
    WsList w1 ∧ WsList w2 ∧ WsList w3 ∧ WsList w4 ∧ TokText mid

/-- Modelled from the spec, §4.1 token extraction as claim C7 words it:
the literal text between the opening delimiter and the first of
whitespace or the matching closing delimiter.  `r` is the text that
follows the opening delimiter. -/
def specTokenAfterOpen (ang : Bool) (r : Str) : Str :=
  r.takeWhile (fun c => !(c == delimClose ang || isSpaceC c))

/-! ## Character-class facts -/

theorem isSpaceC_iff (c : Char) :
    isSpaceC c = true ↔
    c = ' ' ∨ c = '\t' ∨ c = '\n' ∨ c = '\x0b' ∨ c = '\x0c' ∨ c = '\r' := by
  simp [isSpaceC, or_assoc]

theorem isDotChar_iff (c : Char) : isDotChar c = true ↔ (c ≠ '\n' ∧ c ≠ '\r') := by
  simp [isDotChar]

theorem notDelim_of_ws (c : Char) (h : isSpaceC c = true) :
    (!(c == '<' || c == '"')) = true := by
  rw [isSpaceC_iff] at h
  rcases h with rfl | rfl | rfl | rfl | rfl | rfl <;> decide

/-! ## `stripLit` -/

theorem stripLit_eq_some (lit : Str) : ∀ s r, stripLit lit s = some r ↔ s = lit ++ r := by
  induction lit with
  | nil =>
    intro s r
    simp [stripLit]
  | cons l ls ih =>
    intro s r
    cases s with
    | nil => simp [stripLit]
    | cons c cs =>
      simp only [stripLit]
      by_cases hc : c = l
      · subst hc
        rw [if_pos rfl]
        simp [ih]
      · rw [if_neg hc]
        simp [hc]

/-! ## `matchTail` -/

theorem matchTail_iff (close : Char) (hcl : isSpaceC close = false) (r : Str) :
    matchTail close r = true ↔ ∃ mid w4, r = mid ++ close :: w4 ∧ TokText mid ∧ WsList w4 := by
  constructor
  · intro h
    unfold matchTail at h
    cases hdw : r.reverse.dropWhile isSpaceC with
    | nil =>
      rw [hdw] at h
      have h' : (false : Bool) = true := h
      exact absurd h' (by simp)
    | cons c t =>
      rw [hdw] at h
      have h' : (if c = close then t.all isDotChar else false) = true := h
      by_cases hc : c = close
      · rw [if_pos hc] at h'
        have hdec : r.reverse = r.reverse.takeWhile isSpaceC ++ (c :: t) := by
          conv_lhs => rw [← List.takeWhile_append_dropWhile (p := isSpaceC) (l := r.reverse)]
          rw [hdw]
        have hr : r = t.reverse ++ c :: (r.reverse.takeWhile isSpaceC).reverse := by
          conv_lhs => rw [← List.reverse_reverse r, hdec]
          rw [List.reverse_append, List.reverse_cons, List.append_assoc, List.singleton_append]
        subst hc
        refine ⟨t.reverse, (r.reverse.takeWhile isSpaceC).reverse, hr, ?_, ?_⟩
        · intro x hx
          have hx' : x ∈ t := List.mem_reverse.mp hx
          have := (List.all_eq_true.mp h') x hx'
          exact (isDotChar_iff x).mp this
        · intro x hx
          exact mem_takeWhile_pred _ _ x (List.mem_reverse.mp hx)
      · rw [if_neg hc] at h'
        exact absurd h' (by simp)
  · rintro ⟨mid, w4, rfl, hmid, hw4⟩
    unfold matchTail
    have hrev : (mid ++ close :: w4).reverse = w4.reverse ++ close :: mid.reverse := by
      rw [List.reverse_append, List.reverse_cons, List.append_assoc, List.singleton_append]
    rw [hrev, dropWhile_append_all _ _ _ (fun c hc => hw4 c (List.mem_reverse.mp hc)),
      dropWhile_cons_false _ _ _ hcl]
    show (if close = close then mid.reverse.all isDotChar else false) = true
    rw [if_pos rfl, List.all_eq_true]
    intro x hx
    exact (isDotChar_iff x).mpr (hmid x (List.mem_reverse.mp hx))

/-! ## `includeDirRest` -/

theorem includeDirRest_eq_some_iff (cs rest : Str) :
    includeDirRest cs = some rest ↔
    ∃ w1 w2 r2, cs = w1 ++ '#' :: (w2 ++ (includeWord ++ r2)) ∧ WsList w1 ∧ WsList w2 ∧
      rest = r2.dropWhile isSpaceC := by
  constructor
  · intro h
    unfold includeDirRest at h
    cases hdw : cs.dropWhile isSpaceC with
    | nil =>
      rw [hdw] at h
      have h' : (none : Option Str) = some rest := h
      exact absurd h' (by simp)
    | cons c r1 =>
      rw [hdw] at h
      have h' : (if c = '#' then
          match stripLit includeWord (r1.dropWhile isSpaceC) with
          | none => none
          | some r2 => some (r2.dropWhile isSpaceC)
        else none) = some rest := h
      by_cases hc : c = '#'
      · rw [if_pos hc] at h'
        cases hstrip : stripLit includeWord (r1.dropWhile isSpaceC) with
        | none =>
          rw [hstrip] at h'
          have h'' : (none : Option Str) = some rest := h'
          exact absurd h'' (by simp)
        | some r2 =>
          rw [hstrip] at h'
          have h'' : some (r2.dropWhile isSpaceC) = some rest := h'
          have hrest : rest = r2.dropWhile isSpaceC := (Option.some.inj h'').symm
          have hr1 : r1 = r1.takeWhile isSpaceC ++ (includeWord ++ r2) := by
            conv_lhs => rw [← List.takeWhile_append_dropWhile (p := isSpaceC) (l := r1)]
            rw [(stripLit_eq_some includeWord _ r2).mp hstrip]
          have hcs : cs = cs.takeWhile isSpaceC ++ (c :: r1) := by
            conv_lhs => rw [← List.takeWhile_append_dropWhile (p := isSpaceC) (l := cs)]
            rw [hdw]
          subst hc
          refine ⟨cs.takeWhile isSpaceC, r1.takeWhile isSpaceC, r2, ?_, ?_, ?_, hrest⟩
          · conv_lhs => rw [hcs]
            conv_lhs => rw [hr1]
          · exact fun x hx => mem_takeWhile_pred _ _ x hx
          · exact fun x hx => mem_takeWhile_pred _ _ x hx
      · rw [if_neg hc] at h'
        have h'' : (none : Option Str) = some rest := h'
        exact absurd h'' (by simp)
  · rintro ⟨w1, w2, r2, rfl, hw1, hw2, rfl⟩
    unfold includeDirRest
    rw [dropWhile_append_all _ _ _ hw1, dropWhile_cons_false _ _ _ (by decide)]
    have hw2' : (w2 ++ (includeWord ++ r2)).dropWhile isSpaceC = includeWord ++ r2 := by
      rw [dropWhile_append_all _ _ _ hw2]
      simp only [includeWord, List.cons_append, List.nil_append]
      rw [dropWhile_cons_false _ _ _ (by decide)]
    show (if '#' = '#' then
        match stripLit includeWord ((w2 ++ (includeWord ++ r2)).dropWhile isSpaceC) with
        | none => none
        | some r3 => some (r3.dropWhile isSpaceC)
      else none) = some (r2.dropWhile isSpaceC)
    rw [if_pos rfl, hw2', (stripLit_eq_some includeWord (includeWord ++ r2) r2).mpr rfl]

/-! ## The scanner agrees with the spec grammar -/

theorem regexIncludeMatch_iff_shape (cs : Str) :
    regexIncludeMatchL cs = true ↔ specIncludeShape cs := by
  constructor
  · intro h
    unfold regexIncludeMatchL at h
    cases hdr : includeDirRest cs with
    | none =>
      rw [hdr] at h
      have h' : (false : Bool) = true := h
      exact absurd h' (by simp)
    | some v =>
      rw [hdr] at h
      cases v with
      | nil =>
        have h' : (false : Bool) = true := h
        exact absurd h' (by simp)
      | cons c r =>
        have h' : (if c = '<' then matchTail '>' r
            else if c = '"' then matchTail '"' r else false) = true := h
        obtain ⟨w1, w2, r2, hcs, hw1, hw2, hrest⟩ := (includeDirRest_eq_some_iff cs _).mp hdr
        have hr2 : r2 = r2.takeWhile isSpaceC ++ (c :: r) := by
          conv_lhs => rw [← List.takeWhile_append_dropWhile (p := isSpaceC) (l := r2)]
          rw [← hrest]
        have hw3 : WsList (r2.takeWhile isSpaceC) := fun x hx => mem_takeWhile_pred _ _ x hx
        by_cases hc1 : c = '<'
        · rw [if_pos hc1] at h'
          obtain ⟨mid, w4, hr, hmid, hw4⟩ := (matchTail_iff '>' (by decide) r).mp h'
          refine ⟨true, w1, w2, r2.takeWhile isSpaceC, mid, w4, ?_, hw1, hw2, hw3, hw4, hmid⟩
          show cs = w1 ++ '#' :: (w2 ++ (includeWord ++ (r2.takeWhile isSpaceC ++ '<' :: (mid ++ '>' :: w4))))
          conv_lhs => rw [hcs]
          conv_lhs => rw [hr2]
          rw [hc1, hr]
        · rw [if_neg hc1] at h'
          by_cases hc2 : c = '"'
          · rw [if_pos hc2] at h'
            obtain ⟨mid, w4, hr, hmid, hw4⟩ := (matchTail_iff '"' (by decide) r).mp h'
            refine ⟨false, w1, w2, r2.takeWhile isSpaceC, mid, w4, ?_, hw1, hw2, hw3, hw4, hmid⟩
            show cs = w1 ++ '#' :: (w2 ++ (includeWord ++ (r2.takeWhile isSpaceC ++ '"' :: (mid ++ '"' :: w4))))
            conv_lhs => rw [hcs]
            conv_lhs => rw [hr2]
            rw [hc2, hr]
          · rw [if_neg hc2] at h'
            exact absurd h' (by simp)
  · rintro ⟨ang, w1, w2, w3, mid, w4, rfl, hw1, hw2, hw3, hw4, hmid⟩
    unfold regexIncludeMatchL
    have hdr : includeDirRest
        (w1 ++ '#' :: (w2 ++ (includeWord ++ (w3 ++ delimOpen ang :: (mid ++ delimClose ang :: w4))))) =
        some ((w3 ++ delimOpen ang :: (mid ++ delimClose ang :: w4)).dropWhile isSpaceC) :=
      (includeDirRest_eq_some_iff _ _).mpr ⟨w1, w2, _, rfl, hw1, hw2, rfl⟩
    have hopen : isSpaceC (delimOpen ang) = false := by cases ang <;> decide
    have hdw : (w3 ++ delimOpen ang :: (mid ++ delimClose ang :: w4)).dropWhile isSpaceC =
        delimOpen ang :: (mid ++ delimClose ang :: w4) := by
      rw [dropWhile_append_all _ _ _ hw3, dropWhile_cons_false _ _ _ hopen]
    rw [hdr, hdw]
    cases ang with
    | false =>
      show (if delimOpen false = '<' then matchTail '>' (mid ++ delimClose false :: w4)
          else if delimOpen false = '"' then matchTail '"' (mid ++ delimClose false :: w4)
          else false) = true
      rw [if_neg (by decide), if_pos (by decide)]
      exact (matchTail_iff '"' (by decide) _).mpr ⟨mid, w4, rfl, hmid, hw4⟩
    | true =>
      show (if delimOpen true = '<' then matchTail '>' (mid ++ delimClose true :: w4)
          else if delimOpen true = '"' then matchTail '"' (mid ++ delimClose true :: w4)
          else false) = true
      rw [if_pos (by decide)]
      exact (matchTail_iff '>' (by decide) _).mpr ⟨mid, w4, rfl, hmid, hw4⟩

/-! ## Token extraction on directive lines -/

/-- On any line of the directive shape, the extraction loop of lines
312-324 finds the opening delimiter (no delimiter character can occur
before it), skips the whitespace that follows it, and then stops at the
first of `>`, `"`, or whitespace — whichever comes first, independent
of the directive's own delimiter style. -/
theorem extractToken_of_shape (ang : Bool) (w1 w2 w3 mid w4 : Str)
    (hw1 : WsList w1) (hw2 : WsList w2) (hw3 : WsList w3) :
    extractToken (w1 ++ '#' :: (w2 ++ (includeWord ++ (w3 ++ delimOpen ang :: (mid ++ delimClose ang :: w4))))) =
      ((mid ++ delimClose ang :: w4).dropWhile isSpaceC).takeWhile
        (fun c => !(c == '>' || c == '"' || isSpaceC c)) := by
  unfold extractToken
  have hpre : ∀ c ∈ w1 ++ '#' :: (w2 ++ (includeWord ++ w3)), (!(c == '<' || c == '"')) = true := by
    intro c hc
    rcases List.mem_append.mp hc with h1 | h1
    · exact notDelim_of_ws c (hw1 c h1)
    · rcases List.mem_cons.mp h1 with rfl | h2
      · decide
      · rcases List.mem_append.mp h2 with h3 | h3
        · exact notDelim_of_ws c (hw2 c h3)
        · rcases List.mem_append.mp h3 with h4 | h4
          · simp only [includeWord, List.mem_cons, List.not_mem_nil, or_false] at h4
            rcases h4 with rfl | rfl | rfl | rfl | rfl | rfl | rfl <;> decide
          · exact notDelim_of_ws c (hw3 c h4)
  have harr : w1 ++ '#' :: (w2 ++ (includeWord ++ (w3 ++ delimOpen ang :: (mid ++ delimClose ang :: w4)))) =
      (w1 ++ '#' :: (w2 ++ (includeWord ++ w3))) ++ delimOpen ang :: (mid ++ delimClose ang :: w4) := by
    simp [List.append_assoc]
  rw [harr, dropWhile_append_all _ _ _ hpre,
    dropWhile_cons_false _ _ _ (by cases ang <;> decide)]
  simp [List.drop]

/-! ## Expanded names of a dependency forest

`expNamesF` collects, in order, the canonical path of every tree node
whose status is `I_EXPENDED` — exactly the files whose bodies were
inlined into the output. -/

def expNamesF : List file_t → List Str
  | [] => []
  | file_t.mk nm kids st _ :: ts =>
    (if st = include_state_t.I_EXPENDED then [nm] else []) ++ expNamesF kids ++ expNamesF ts

theorem expNamesF_append (a b : List file_t) :
    expNamesF (a ++ b) = expNamesF a ++ expNamesF b := by
  induction a with
  | nil => simp [expNamesF]
  | cons t ts ih =>
    cases t with
    | mk nm kids st ang => simp [expNamesF, ih, List.append_assoc]

/-! ## Monotonicity of the included-files set -/

def incSub (a b : Config) : Prop := ∀ x, x ∈ a.includedFiles → x ∈ b.includedFiles

theorem incSub_refl (a : Config) : incSub a a := fun _ h => h

theorem incSub_trans {a b c : Config} (h1 : incSub a b) (h2 : incSub b c) : incSub a c :=
  fun x hx => h2 x (h1 x hx)

theorem processDirs_mono (rec : Config → file_t → Str → PIRes) (fsys : FSys) (ia : Bool)
    (tok : Str) (ang : Bool)
    (hrec : ∀ cfg t o cfg' t' o', rec cfg t o = .ok cfg' t' o' → incSub cfg cfg') :
    ∀ ps cfg kids content found lastSt tempKids cfg' kids' content' found' lastSt' tempKids',
      processDirs rec fsys ia tok ang ps cfg kids content found lastSt tempKids =
        .ok cfg' kids' content' found' lastSt' tempKids' → incSub cfg cfg' := by
  intro ps
  induction ps with
  | nil =>
    intro cfg kids content found lastSt tempKids cfg' kids' content' found' lastSt' tempKids' h
    simp only [processDirs] at h
    cases h
    exact incSub_refl _
  | cons p ps ih =>
    intro cfg kids content found lastSt tempKids cfg' kids' content' found' lastSt' tempKids' h
    simp only [processDirs] at h
    split at h
    · split at h
      · exact ih _ _ _ _ _ _ _ _ _ _ _ _ h
      · split at h
        · rename_i cfg2 temp2 content2 heq
          exact incSub_trans (hrec _ _ _ _ _ _ heq) (ih _ _ _ _ _ _ _ _ _ _ _ _ h)
        · cases h
        · cases h
    · exact ih _ _ _ _ _ _ _ _ _ _ _ _ h

theorem processLines_mono (rec : Config → file_t → Str → PIRes) (fsys : FSys) (ia : Bool)
    (sp : List Str)
    (hrec : ∀ cfg t o cfg' t' o', rec cfg t o = .ok cfg' t' o' → incSub cfg cfg') :
    ∀ lines cfg kids out cfg' kids' out',
      processLines rec fsys ia sp lines cfg kids out = .ok cfg' kids' out' → incSub cfg cfg' := by
  intro lines
  induction lines with
  | nil =>
    intro cfg kids out cfg' kids' out' h
    simp only [processLines] at h
    cases h
    exact incSub_refl _
  | cons line rest ih =>
    intro cfg kids out cfg' kids' out' h
    simp only [processLines] at h
    split at h
    · exact ih _ _ _ _ _ _ h
    · split at h
      · cases h
      · cases h
      · rename_i cfg2 kids2 content2 found2 lastSt2 tempKids2 heq
        have h2 : incSub cfg cfg2 :=
          processDirs_mono rec fsys ia _ _ hrec _ _ _ _ _ _ _ _ _ _ _ _ _ heq
        split at h
        · exact incSub_trans h2 (ih _ _ _ _ _ _ h)
        · split at h
          · exact incSub_trans h2 (ih _ _ _ _ _ _ h)
          · exact incSub_trans h2 (ih _ _ _ _ _ _ h)

theorem parseIncludeF_mono (fsys : FSys) (ia : Bool) (rootName : Str) :
    ∀ n cfg file out cfg' t' o',
      parseIncludeF fsys ia rootName n cfg file out = .ok cfg' t' o' → incSub cfg cfg' := by
  intro n
  induction n with
  | zero =>
    intro cfg file out cfg' t' o' h
    cases h
  | succ n ih =>
    intro cfg file out cfg' t' o' h
    simp only [parseIncludeF] at h
    split at h
    · cases h
    · split at h
      · rename_i cfgX kidsX outX heq
        cases h
        have h1 := processLines_mono _ fsys ia _ (fun c f o c' f' o' hr => ih c f o c' f' o' hr)
          _ _ _ _ _ _ _ heq
        intro x hx
        exact h1 x (mem_insertSet_of_mem _ _ _ hx)
      · cases h
      · cases h

/-- A successful `parse_include` keeps the node's own name, state and
delimiter style, only filling in its children (cf. lines 289-367: only
`file.includeFiles` is written through `file`). -/
theorem parseIncludeF_shape (fsys : FSys) (ia : Bool) (rootName : Str) :
    ∀ n cfg file out cfg' t' o',
      parseIncludeF fsys ia rootName n cfg file out = .ok cfg' t' o' →
      ∃ kids', t' = file_t.mk file.name kids' file.state file.is_angle := by
  intro n cfg file out cfg' t' o' h
  cases n with
  | zero => cases h
  | succ n =>
    simp only [parseIncludeF] at h
    split at h
    · cases h
    · split at h
      · rename_i cfgX kidsX outX heq
        cases h
        exact ⟨kidsX, rfl⟩
      · cases h
      · cases h

/-- A successful `parse_include` records the file it opened: line 295
inserts `file.name` into `includedFiles` and the set only grows. -/
theorem parseIncludeF_mem_final (fsys : FSys) (ia : Bool) (rootName : Str) :
    ∀ n cfg file out cfg' t' o',
      parseIncludeF fsys ia rootName n cfg file out = .ok cfg' t' o' →
      file.name ∈ cfg'.includedFiles := by
  intro n cfg file out cfg' t' o' h
  cases n with
  | zero => cases h
  | succ n =>
    simp only [parseIncludeF] at h
    split at h
    · cases h
    · split at h
      · rename_i cfgX kidsX outX heq
        cases h
        have h1 := processLines_mono _ fsys ia _
          (fun c f o c' f' o' hr => parseIncludeF_mono fsys ia rootName n c f o c' f' o' hr)
          _ _ _ _ _ _ _ heq
        exact h1 file.name (mem_insertSet_self _ _)
      · cases h
      · cases h

/-! ## Step lemmas for the directory-probe loop and the line loop -/

/-- The probe loop leaves everything unchanged when no candidate
directory holds the file. -/
theorem processDirs_no_match (rec : Config → file_t → Str → PIRes) (fsys : FSys) (ia : Bool)
    (tok : Str) (ang : Bool) :
    ∀ ps cfg kids content found lastSt tempKids,
      (∀ p ∈ ps, fsys.isFile (joinPath p tok) = false) →
      processDirs rec fsys ia tok ang ps cfg kids content found lastSt tempKids =
        .ok cfg kids content found lastSt tempKids := by
  intro ps
  induction ps with
  | nil =>
    intro cfg kids content found lastSt tempKids _
    rfl
  | cons p ps ih =>
    intro cfg kids content found lastSt tempKids hnone
    simp only [processDirs]
    rw [if_neg (by simp [hnone p (List.mem_cons_self p ps)])]
    exact ih _ _ _ _ _ _ fun q hq => hnone q (List.mem_cons_of_mem _ hq)

/-- The `found` flag of the probe loop never goes back to `false`. -/
theorem processDirs_found_mono (rec : Config → file_t → Str → PIRes) (fsys : FSys) (ia : Bool)
    (tok : Str) (ang : Bool) :
    ∀ ps cfg kids content lastSt tempKids cfg' kids' content' found' lastSt' tempKids',
      processDirs rec fsys ia tok ang ps cfg kids content true lastSt tempKids =
        .ok cfg' kids' content' found' lastSt' tempKids' → found' = true := by
  intro ps
  induction ps with
  | nil =>
    intro cfg kids content lastSt tempKids cfg' kids' content' found' lastSt' tempKids' h
    cases h
    rfl
  | cons p ps ih =>
    intro cfg kids content lastSt tempKids cfg' kids' content' found' lastSt' tempKids' h
    simp only [processDirs] at h
    split at h
    · split at h
      · exact ih _ _ _ _ _ _ _ _ _ _ _ h
      · split at h
        · exact ih _ _ _ _ _ _ _ _ _ _ _ h
        · cases h
        · cases h
    · exact ih _ _ _ _ _ _ _ _ _ _ _ h

/-- If the probe loop starts with `found = false` and ends with
`found = false`, no directory matched and nothing changed — in
particular `temp.includeFiles` is still the list it started with. -/
theorem processDirs_no_found (rec : Config → file_t → Str → PIRes) (fsys : FSys) (ia : Bool)
    (tok : Str) (ang : Bool) :
    ∀ ps cfg kids content lastSt tempKids cfg' kids' content' lastSt' tempKids',
      processDirs rec fsys ia tok ang ps cfg kids content false lastSt tempKids =
        .ok cfg' kids' content' false lastSt' tempKids' →
      cfg' = cfg ∧ kids' = kids ∧ content' = content ∧ tempKids' = tempKids := by
  intro ps
  induction ps with
  | nil =>
    intro cfg kids content lastSt tempKids cfg' kids' content' lastSt' tempKids' h
    cases h
    exact ⟨rfl, rfl, rfl, rfl⟩
  | cons p ps ih =>
    intro cfg kids content lastSt tempKids cfg' kids' content' lastSt' tempKids' h
    simp only [processDirs] at h
    split at h
    · split at h
      · exact absurd (processDirs_found_mono rec fsys ia tok ang _ _ _ _ _ _ _ _ _ _ _ _ h)
          (by simp)
      · split at h
        · exact absurd (processDirs_found_mono rec fsys ia tok ang _ _ _ _ _ _ _ _ _ _ _ _ h)
            (by simp)
        · cases h
        · cases h
    · exact ih _ _ _ _ _ _ _ _ _ _ h

/-- The probe loop visits every directory: each match — and only a
match — appends exactly one child node, so the loop never stops early. -/
theorem processDirs_count (rec : Config → file_t → Str → PIRes) (fsys : FSys) (ia : Bool)
    (tok : Str) (ang : Bool) :
    ∀ ps cfg kids content found lastSt tempKids cfg' kids' content' found' lastSt' tempKids',
      processDirs rec fsys ia tok ang ps cfg kids content found lastSt tempKids =
        .ok cfg' kids' content' found' lastSt' tempKids' →
      kids'.length = kids.length + ps.countP (fun p => fsys.isFile (joinPath p tok)) := by
  intro ps
  induction ps with
  | nil =>
    intro cfg kids content found lastSt tempKids cfg' kids' content' found' lastSt' tempKids' h
    cases h
    simp
  | cons p ps ih =>
    intro cfg kids content found lastSt tempKids cfg' kids' content' found' lastSt' tempKids' h
    simp only [processDirs] at h
    split at h
    · rename_i hf
      rw [List.countP_cons_of_pos _ _ (by simpa using hf)]
      split at h
      · have := ih _ _ _ _ _ _ _ _ _ _ _ _ h
        simp only [List.length_append, List.length_cons, List.length_nil] at this
        omega
      · split at h
        · have := ih _ _ _ _ _ _ _ _ _ _ _ _ h
          simp only [List.length_append, List.length_cons, List.length_nil] at this
          omega
        · cases h
        · cases h
    · rename_i hf
      rw [List.countP_cons_of_neg _ _ (by simpa using hf)]
      exact ih _ _ _ _ _ _ _ _ _ _ _ _ h

/-- The line loop only ever appends to the output accumulator. -/
theorem processLines_out_append (rec : Config → file_t → Str → PIRes) (fsys : FSys) (ia : Bool)
    (sp : List Str) :
    ∀ lines cfg kids out cfg' kids' out',
      processLines rec fsys ia sp lines cfg kids out = .ok cfg' kids' out' →
      ∃ s, out' = out ++ s := by
  intro lines
  induction lines with
  | nil =>
    intro cfg kids out cfg' kids' out' h
    cases h
    exact ⟨[], by simp⟩
  | cons line rest ih =>
    intro cfg kids out cfg' kids' out' h
    simp only [processLines] at h
    split at h
    · obtain ⟨s, hs⟩ := ih _ _ _ _ _ _ h
      exact ⟨line ++ '\n' :: s, by rw [hs]; simp [List.append_assoc]⟩
    · split at h
      · cases h
      · cases h
      · rename_i cfg2 kids2 content2 found2 lastSt2 tempKids2 heq
        split at h
        · obtain ⟨s, hs⟩ := ih _ _ _ _ _ _ h
          exact ⟨line ++ '\n' :: s, by rw [hs]; simp [List.append_assoc]⟩
        · split at h
          · obtain ⟨s, hs⟩ := ih _ _ _ _ _ _ h
            exact ⟨commentBegin line ++ content2 ++ commentEnd line ++ s,
              by rw [hs]; simp [List.append_assoc]⟩
          · obtain ⟨s, hs⟩ := ih _ _ _ _ _ _ h
            exact ⟨omitComment line ++ s, by rw [hs]; simp [List.append_assoc]⟩

/-- A line that does not match `regex_include` is copied to the output
byte-identically, followed by a newline (line 306 of `main.cpp`). -/
theorem processLines_plain_step (rec : Config → file_t → Str → PIRes) (fsys : FSys) (ia : Bool)
    (sp : List Str) (line : Str) (rest : List Str) (cfg : Config) (kids : List file_t) (out : Str)
    (hline : regexIncludeMatchL line = false) :
    processLines rec fsys ia sp (line :: rest) cfg kids out =
      processLines rec fsys ia sp rest cfg kids (out ++ line ++ ['\n']) := by
  simp only [processLines]
  rw [if_pos hline]

/-- A file without any directive line contributes exactly its lines,
each followed by a newline. -/
theorem processLines_all_plain (rec : Config → file_t → Str → PIRes) (fsys : FSys) (ia : Bool)
    (sp : List Str) :
    ∀ lines cfg kids out, (∀ l ∈ lines, regexIncludeMatchL l = false) →
      processLines rec fsys ia sp lines cfg kids out =
        .ok cfg kids (out ++ (lines.map (fun l => l ++ ['\n'])).flatten) := by
  intro lines
  induction lines with
  | nil =>
    intro cfg kids out _
    simp [processLines]
  | cons line rest ih =>
    intro cfg kids out hall
    rw [processLines_plain_step rec fsys ia sp line rest cfg kids out
      (hall line (List.mem_cons_self _ _))]
    rw [ih _ _ _ fun l hl => hall l (List.mem_cons_of_mem _ hl)]
    simp [List.append_assoc]

/-- An include directive that matches no candidate directory appends a
`I_NOT_FOUND` leaf named by the raw token and copies the directive line
to the output unchanged (lines 348-353 of `main.cpp`). -/
theorem processLines_notfound_step (rec : Config → file_t → Str → PIRes) (fsys : FSys) (ia : Bool)
    (sp : List Str) (line : Str) (rest : List Str) (cfg : Config) (kids : List file_t) (out : Str)
    (hline : regexIncludeMatchL line = true)
    (hnone : ∀ p ∈ sp, fsys.isFile (joinPath p (extractToken line)) = false) :
    processLines rec fsys ia sp (line :: rest) cfg kids out =
      processLines rec fsys ia sp rest cfg
        (kids ++ [file_t.mk (extractToken line) [] .I_NOT_FOUND (regexSystemMatchL line)])
        (out ++ line ++ ['\n']) := by
  simp only [processLines]
  rw [if_neg (by simp [hline])]
  rw [processDirs_no_match rec fsys ia (extractToken line) (regexSystemMatchL line)
    sp cfg kids [] false .I_EXPENDED [] hnone]
  rfl

/-! ## Fuel sufficiency with `include_all` off -/

/-- The number of files of the (finite) file system not yet recorded in
the included set: the termination measure of `parse_include`. -/
def residual (files : Finset Str) (inc : List Str) : Nat :=
  (files.filter (fun f => f ∉ inc)).card

theorem residual_lt (files : Finset Str) (inc1 inc2 : List Str) (c : Str)
    (hsub : ∀ x, x ∈ inc1 → x ∈ inc2) (hcf : c ∈ files) (hc2 : c ∉ inc2) :
    residual files (insertSet inc2 c) < residual files inc1 := by
  apply Finset.card_lt_card
  rw [Finset.ssubset_def]
  constructor
  · intro x hx
    rw [Finset.mem_filter] at hx ⊢
    refine ⟨hx.1, ?_⟩
    intro hx1
    exact hx.2 (mem_insertSet_of_mem _ _ _ (hsub x hx1))
  · intro hcon
    have hcmem : c ∈ files.filter (fun f => f ∉ inc1) := by
      rw [Finset.mem_filter]
      exact ⟨hcf, fun h1 => hc2 (hsub c h1)⟩
    have h2 := hcon hcmem
    rw [Finset.mem_filter] at h2
    exact h2.2 (mem_insertSet_self _ _)

theorem processDirs_ne_nofuel (rec : Config → file_t → Str → PIRes) (fsys : FSys)
    (tok : Str) (ang : Bool) (files : Finset Str) (cfg0 : Config)
    (hcoh : ∀ p, fsys.isFile p = true → fsys.canon p ∈ files)
    (hrec_mono : ∀ cfg t o cfg' t' o', rec cfg t o = .ok cfg' t' o' → incSub cfg cfg')
    (hrec : ∀ cfg c ks ang2 o, incSub cfg0 cfg → c ∈ files → c ∉ cfg.includedFiles →
      rec cfg (file_t.mk c ks .I_EXPENDED ang2) o ≠ .nofuel) :
    ∀ ps cfg kids content found lastSt tempKids, incSub cfg0 cfg →
      processDirs rec fsys false tok ang ps cfg kids content found lastSt tempKids ≠ .nofuel := by
  intro ps
  induction ps with
  | nil =>
    intro cfg kids content found lastSt tempKids _
    simp [processDirs]
  | cons p ps ih =>
    intro cfg kids content found lastSt tempKids hsub
    simp only [processDirs]
    split
    · rename_i hf
      split
      · exact ih _ _ _ _ _ _ hsub
      · rename_i hnotmem
        split
        · rename_i cfg2 t2 o2 hr
          exact ih _ _ _ _ _ _ (incSub_trans hsub (hrec_mono _ _ _ _ _ _ hr))
        · simp
        · rename_i hr
          have hc : fsys.canon (joinPath p tok) ∉ cfg.includedFiles := fun hm => hnotmem ⟨trivial, hm⟩
          exact absurd hr (hrec cfg _ tempKids ang content hsub (hcoh _ hf) hc)
    · exact ih _ _ _ _ _ _ hsub

theorem processLines_ne_nofuel (rec : Config → file_t → Str → PIRes) (fsys : FSys)
    (sp : List Str) (files : Finset Str) (cfg0 : Config)
    (hcoh : ∀ p, fsys.isFile p = true → fsys.canon p ∈ files)
    (hrec_mono : ∀ cfg t o cfg' t' o', rec cfg t o = .ok cfg' t' o' → incSub cfg cfg')
    (hrec : ∀ cfg c ks ang2 o, incSub cfg0 cfg → c ∈ files → c ∉ cfg.includedFiles →
      rec cfg (file_t.mk c ks .I_EXPENDED ang2) o ≠ .nofuel) :
    ∀ lines cfg kids out, incSub cfg0 cfg →
      processLines rec fsys false sp lines cfg kids out ≠ .nofuel := by
  intro lines
  induction lines with
  | nil =>
    intro cfg kids out _
    simp [processLines]
  | cons line rest ih =>
    intro cfg kids out hsub
    simp only [processLines]
    split
    · exact ih _ _ _ hsub
    · split
      · simp
      · rename_i hd
        exact absurd hd
          (processDirs_ne_nofuel rec fsys _ _ files cfg0 hcoh hrec_mono hrec _ _ _ _ _ _ _ hsub)
      · rename_i cfg2 kids2 content2 found2 lastSt2 tempKids2 hd
        have hsub2 : incSub cfg0 cfg2 :=
          incSub_trans hsub
            (processDirs_mono rec fsys false _ _ hrec_mono _ _ _ _ _ _ _ _ _ _ _ _ _ hd)
        split
        · exact ih _ _ _ hsub2
        · split
          · exact ih _ _ _ hsub2
          · exact ih _ _ _ hsub2

/-- With `include_all` off, fuel exceeding the number of not-yet-included
files always suffices: `parse_include` terminates on every include
graph, cyclic ones included, because every opened file is recorded in
`includedFiles` (line 295) before its body is scanned. -/
theorem parseIncludeF_ne_nofuel (fsys : FSys) (rootName : Str) (files : Finset Str)
    (hcoh : ∀ p, fsys.isFile p = true → fsys.canon p ∈ files) :
    ∀ n cfg file out, residual files (insertSet cfg.includedFiles file.name) < n →
      parseIncludeF fsys false rootName n cfg file out ≠ .nofuel := by
  intro n
  induction n using Nat.strong_induction_on with
  | _ n ih =>
    intro cfg file out hres
    cases n with
    | zero => exact absurd hres (Nat.not_lt_zero _)
    | succ n =>
      simp only [parseIncludeF]
      split
      · simp
      · split
        · simp
        · simp
        · rename_i content hrf hpl
          refine absurd hpl (processLines_ne_nofuel _ fsys _ files
            { cfg with includedFiles := insertSet cfg.includedFiles file.name } hcoh
            (fun c f o c' f' o' hr => parseIncludeF_mono fsys false rootName n c f o c' f' o' hr)
            ?_ _ _ _ _ (incSub_refl _))
          intro cfg2 c ks ang2 o hsub2 hcf hc2
          apply ih n (Nat.lt_succ_self n)
          simp only [file_t.name]
          have h1 : residual files (insertSet cfg2.includedFiles c) <
              residual files (insertSet cfg.includedFiles file.name) :=
            residual_lt files _ _ c (fun x hx => hsub2 x hx) hcf hc2
          omega

/-! ## Search-path preservation

`parse_include` never writes `includePaths` (only `parse_config`
builds it), so the list survives the whole recursion. -/

theorem processDirs_paths (rec : Config → file_t → Str → PIRes) (fsys : FSys) (ia : Bool)
    (tok : Str) (ang : Bool)
    (hrec : ∀ cfg t o cfg' t' o', rec cfg t o = .ok cfg' t' o' →
      cfg'.includePaths = cfg.includePaths) :
    ∀ ps cfg kids content found lastSt tempKids cfg' kids' content' found' lastSt' tempKids',
      processDirs rec fsys ia tok ang ps cfg kids content found lastSt tempKids =
        .ok cfg' kids' content' found' lastSt' tempKids' →
      cfg'.includePaths = cfg.includePaths := by
  intro ps
  induction ps with
  | nil =>
    intro cfg kids content found lastSt tempKids cfg' kids' content' found' lastSt' tempKids' h
    cases h
    rfl
  | cons p ps ih =>
    intro cfg kids content found lastSt tempKids cfg' kids' content' found' lastSt' tempKids' h
    simp only [processDirs] at h
    split at h
    · split at h
      · exact ih _ _ _ _ _ _ _ _ _ _ _ _ h
      · split at h
        · rename_i cfg2 temp2 content2 heq
          rw [ih _ _ _ _ _ _ _ _ _ _ _ _ h]
          exact hrec _ _ _ _ _ _ heq
        · cases h
        · cases h
    · exact ih _ _ _ _ _ _ _ _ _ _ _ _ h

theorem processLines_paths (rec : Config → file_t → Str → PIRes) (fsys : FSys) (ia : Bool)
    (sp : List Str)
    (hrec : ∀ cfg t o cfg' t' o', rec cfg t o = .ok cfg' t' o' →
      cfg'.includePaths = cfg.includePaths) :
    ∀ lines cfg kids out cfg' kids' out',
      processLines rec fsys ia sp lines cfg kids out = .ok cfg' kids' out' →
      cfg'.includePaths = cfg.includePaths := by
  intro lines
  induction lines with
  | nil =>
    intro cfg kids out cfg' kids' out' h
    cases h
    rfl
  | cons line rest ih =>
    intro cfg kids out cfg' kids' out' h
    simp only [processLines] at h
    split at h
    · exact ih _ _ _ _ _ _ h
    · split at h
      · cases h
      · cases h
      · rename_i cfg2 kids2 content2 found2 lastSt2 tempKids2 heq
        have h2 := processDirs_paths rec fsys ia _ _ hrec _ _ _ _ _ _ _ _ _ _ _ _ _ heq
        split at h
        · rw [ih _ _ _ _ _ _ h, h2]
        · split at h
          · rw [ih _ _ _ _ _ _ h, h2]
          · rw [ih _ _ _ _ _ _ h, h2]

theorem parseIncludeF_paths (fsys : FSys) (ia : Bool) (rootName : Str) :
    ∀ n cfg file out cfg' t' o',
      parseIncludeF fsys ia rootName n cfg file out = .ok cfg' t' o' →
      cfg'.includePaths = cfg.includePaths := by
  intro n
  induction n with
  | zero =>
    intro cfg file out cfg' t' o' h
    cases h
  | succ n ih =>
    intro cfg file out cfg' t' o' h
    simp only [parseIncludeF] at h
    split at h
    · cases h
    · split at h
      · rename_i cfgX kidsX outX heq
        cases h
        have h2 := processLines_paths _ fsys ia _
          (fun c f o c2 f2 o2 hr => ih c f o c2 f2 o2 hr) _ _ _ _ _ _ _ heq
        exact h2
      · cases h
      · cases h

/-! ## The once-only invariant

With `include_all` off, every file whose status in the result tree is
`I_EXPENDED` was opened exactly once in the whole run: its canonical
path was absent from `includedFiles` when the decision of line 336 was
taken, and was inserted (line 295) before its body was scanned.

Because `main.cpp` reuses the `temp` node across the directory loop
without clearing `temp.includeFiles`, a directive matching in TWO
candidate directories pushes a second node that still carries the first
match's subtree, duplicating expanded names in the tree (and, when the
two matches share a canonical path, discarding the expanded body from
the output altogether).  The
invariant below therefore assumes every filename resolves under at most
one directory of any candidate list: then each directive matches at
most once, the reused node never carries a stale subtree, and the
expanded names of the result tree are duplicate-free. -/

theorem expNamesF_single (nm : Str) (kids : List file_t) (st : include_state_t) (ang : Bool) :
    expNamesF [file_t.mk nm kids st ang] =
      (if st = include_state_t.I_EXPENDED then [nm] else []) ++ expNamesF kids := by
  simp [expNamesF]

theorem expNamesF_cons (t : file_t) (ts : List file_t) :
    expNamesF (t :: ts) = expNamesF [t] ++ expNamesF ts := by
  cases t with
  | mk nm kids st ang => simp [expNamesF]

theorem processDirs_inv (rec : Config → file_t → Str → PIRes) (fsys : FSys)
    (tok : Str) (ang : Bool) (P : List Str)
    (hrec_mono : ∀ cfg t o cfg' t' o', rec cfg t o = .ok cfg' t' o' → incSub cfg cfg')
    (hrec : ∀ cfg c ang2 o cfg2 t2 o2, cfg.includePaths = P → c ∉ cfg.includedFiles →
      rec cfg (file_t.mk c [] .I_EXPENDED ang2) o = .ok cfg2 t2 o2 →
      (expNamesF [t2]).Nodup ∧
        ∀ x ∈ expNamesF [t2], x ∈ cfg2.includedFiles ∧ x ∉ cfg.includedFiles) :
    ∀ ps cfg kids content found lastSt cfg' kids' content' found' lastSt' tempKids',
      cfg.includePaths = P →
      ps.countP (fun p => fsys.isFile (joinPath p tok)) ≤ 1 →
      processDirs rec fsys false tok ang ps cfg kids content found lastSt [] =
        .ok cfg' kids' content' found' lastSt' tempKids' →
      ∃ added, kids' = kids ++ added ∧ (expNamesF added).Nodup ∧
        ∀ x ∈ expNamesF added, x ∈ cfg'.includedFiles ∧ x ∉ cfg.includedFiles := by
  intro ps
  induction ps with
  | nil =>
    intro cfg kids content found lastSt cfg' kids' content' found' lastSt' tempKids' _ _ h
    cases h
    exact ⟨[], by simp, by simp [expNamesF], by simp [expNamesF]⟩
  | cons p ps ih =>
    intro cfg kids content found lastSt cfg' kids' content' found' lastSt' tempKids' hcfgP hcount h
    simp only [processDirs] at h
    split at h
    · rename_i hf
      have hcnt0 : ps.countP (fun p => fsys.isFile (joinPath p tok)) = 0 := by
        rw [List.countP_cons_of_pos _ _ (by simpa using hf)] at hcount
        omega
      have hnone : ∀ q ∈ ps, fsys.isFile (joinPath q tok) = false := by
        intro q hq
        have h0 := List.countP_eq_zero.mp hcnt0 q hq
        simpa using h0
      split at h
      · rw [processDirs_no_match rec fsys false tok ang ps cfg _ content true
          .I_ALREADY_INCLUDED [] hnone] at h
        cases h
        refine ⟨[file_t.mk (fsys.canon (joinPath p tok)) [] .I_ALREADY_INCLUDED ang],
          rfl, ?_, ?_⟩
        · rw [expNamesF_cons, expNamesF_single, if_neg (by decide)]
          simp [expNamesF]
        · intro x hx
          rw [expNamesF_cons, expNamesF_single, if_neg (by decide)] at hx
          simp [expNamesF] at hx
      · rename_i hnotmem
        split at h
        · rename_i cfg2 t2 o2 heq
          have hc : fsys.canon (joinPath p tok) ∉ cfg.includedFiles :=
            fun hm => hnotmem ⟨trivial, hm⟩
          obtain ⟨hnd1, hmem1⟩ := hrec _ _ _ _ _ _ _ hcfgP hc heq
          rw [processDirs_no_match rec fsys false tok ang ps cfg2 _ o2 true
            .I_EXPENDED t2.includeFiles hnone] at h
          cases h
          exact ⟨[t2], rfl, hnd1, fun x hx => hmem1 x hx⟩
        · cases h
        · cases h
    · rename_i hf
      have hcount2 : ps.countP (fun p => fsys.isFile (joinPath p tok)) ≤ 1 := by
        rw [List.countP_cons_of_neg _ _ (by simpa using hf)] at hcount
        exact hcount
      exact ih _ _ _ _ _ _ _ _ _ _ _ hcfgP hcount2 h

theorem processLines_inv (rec : Config → file_t → Str → PIRes) (fsys : FSys) (sp : List Str)
    (P : List Str)
    (hrec_mono : ∀ cfg t o cfg' t' o', rec cfg t o = .ok cfg' t' o' → incSub cfg cfg')
    (hrec_paths : ∀ cfg t o cfg' t' o', rec cfg t o = .ok cfg' t' o' →
      cfg'.includePaths = cfg.includePaths)
    (hsp : ∀ tok, sp.countP (fun p => fsys.isFile (joinPath p tok)) ≤ 1)
    (hrec : ∀ cfg c ang2 o cfg2 t2 o2, cfg.includePaths = P → c ∉ cfg.includedFiles →
      rec cfg (file_t.mk c [] .I_EXPENDED ang2) o = .ok cfg2 t2 o2 →
      (expNamesF [t2]).Nodup ∧
        ∀ x ∈ expNamesF [t2], x ∈ cfg2.includedFiles ∧ x ∉ cfg.includedFiles) :
    ∀ lines cfg kids out cfg' kids' out',
      cfg.includePaths = P →
      processLines rec fsys false sp lines cfg kids out = .ok cfg' kids' out' →
      ∃ added, kids' = kids ++ added ∧ (expNamesF added).Nodup ∧
        ∀ x ∈ expNamesF added, x ∈ cfg'.includedFiles ∧ x ∉ cfg.includedFiles := by
  intro lines
  induction lines with
  | nil =>
    intro cfg kids out cfg' kids' out' _ h
    cases h
    exact ⟨[], by simp, by simp [expNamesF], by simp [expNamesF]⟩
  | cons line rest ih =>
    intro cfg kids out cfg' kids' out' hcfgP h
    simp only [processLines] at h
    split at h
    · exact ih _ _ _ _ _ _ hcfgP h
    · split at h
      · cases h
      · cases h
      · rename_i cfg2 kids2 content2 found2 lastSt2 tempKids2 heq
        split at h
        · rename_i hfound
          rw [hfound] at heq
          obtain ⟨hcfg2, hkids2, hcontent2, htk2⟩ :=
            processDirs_no_found rec fsys false _ _ sp _ _ _ _ _ _ _ _ _ _ heq
          subst hcfg2
          subst hkids2
          subst htk2
          obtain ⟨add2, hk2, hnd2, hmem2⟩ := ih _ _ _ _ _ _ hcfgP h
          refine ⟨file_t.mk (extractToken line) [] .I_NOT_FOUND (regexSystemMatchL line) :: add2,
            ?_, ?_, ?_⟩
          · rw [hk2]
            simp
          · rw [expNamesF_cons, expNamesF_single, if_neg (by decide)]
            simpa [expNamesF] using hnd2
          · intro x hx
            rw [expNamesF_cons, expNamesF_single, if_neg (by decide)] at hx
            simp only [expNamesF, List.nil_append, List.append_nil] at hx
            exact hmem2 x hx
        · obtain ⟨add1, hk1, hnd1, hmem1⟩ := processDirs_inv rec fsys _ _ P hrec_mono hrec
            sp cfg kids [] false .I_EXPENDED _ _ _ _ _ _ hcfgP (hsp (extractToken line)) heq
          have hmono12 : incSub cfg cfg2 :=
            processDirs_mono rec fsys false _ _ hrec_mono _ _ _ _ _ _ _ _ _ _ _ _ _ heq
          have hcfgP2 : cfg2.includePaths = P := by
            rw [processDirs_paths rec fsys false _ _ hrec_paths _ _ _ _ _ _ _ _ _ _ _ _ _ heq]
            exact hcfgP
          split at h
          · obtain ⟨add2, hk2, hnd2, hmem2⟩ := ih _ _ _ _ _ _ hcfgP2 h
            have hmono23 : incSub cfg2 cfg' :=
              processLines_mono rec fsys false sp hrec_mono _ _ _ _ _ _ _ h
            refine ⟨add1 ++ add2, ?_, ?_, ?_⟩
            · rw [hk2, hk1]
              simp
            · rw [expNamesF_append]
              refine List.Nodup.append hnd1 hnd2 ?_
              intro x hx1 hx2
              exact (hmem2 x hx2).2 ((hmem1 x hx1).1)
            · intro x hx
              rw [expNamesF_append, List.mem_append] at hx
              rcases hx with hx | hx
              · exact ⟨hmono23 x (hmem1 x hx).1, (hmem1 x hx).2⟩
              · exact ⟨(hmem2 x hx).1, fun hcx => (hmem2 x hx).2 (hmono12 x hcx)⟩
          · obtain ⟨add2, hk2, hnd2, hmem2⟩ := ih _ _ _ _ _ _ hcfgP2 h
            have hmono23 : incSub cfg2 cfg' :=
              processLines_mono rec fsys false sp hrec_mono _ _ _ _ _ _ _ h
            refine ⟨add1 ++ add2, ?_, ?_, ?_⟩
            · rw [hk2, hk1]
              simp
            · rw [expNamesF_append]
              refine List.Nodup.append hnd1 hnd2 ?_
              intro x hx1 hx2
              exact (hmem2 x hx2).2 ((hmem1 x hx1).1)
            · intro x hx
              rw [expNamesF_append, List.mem_append] at hx
              rcases hx with hx | hx
              · exact ⟨hmono23 x (hmem1 x hx).1, (hmem1 x hx).2⟩
              · exact ⟨(hmem2 x hx).1, fun hcx => (hmem2 x hx).2 (hmono12 x hcx)⟩

theorem parseIncludeF_inv (fsys : FSys) (rootName : Str) (P : List Str)
    (H : ∀ d tok, ((d :: P).countP (fun p => fsys.isFile (joinPath p tok))) ≤ 1) :
    ∀ n cfg nm st ang out cfg' t' o',
      cfg.includePaths = P →
      nm ∉ cfg.includedFiles →
      parseIncludeF fsys false rootName n cfg (file_t.mk nm [] st ang) out = .ok cfg' t' o' →
      (expNamesF [t']).Nodup ∧
        ∀ x ∈ expNamesF [t'], x ∈ cfg'.includedFiles ∧ x ∉ cfg.includedFiles := by
  intro n
  induction n with
  | zero =>
    intro cfg nm st ang out cfg' t' o' _ _ h
    cases h
  | succ n ih =>
    intro cfg nm st ang out cfg' t' o' hcfgP hnm h
    simp only [parseIncludeF] at h
    split at h
    · cases h
    · split at h
      · rename_i cfgX kidsX outX heq
        injection h with hcfg ht hout
        rw [hcfg, hout] at heq
        rw [← ht]
        have hsp : ∀ tok, ((searchPathsOf cfg (file_t.mk nm [] st ang)).countP
            (fun p => fsys.isFile (joinPath p tok))) ≤ 1 := by
          intro tok
          unfold searchPathsOf
          simp only [file_t.is_angle, file_t.name]
          cases ang with
          | true =>
            rw [if_pos rfl, hcfgP]
            have hH := H (parentPath nm) tok
            rw [List.countP_cons] at hH
            omega
          | false =>
            rw [if_neg (by simp), hcfgP]
            exact H (parentPath nm) tok
        have hrec' : ∀ cfg2 c ang2 o cfg3 t3 o3, cfg2.includePaths = P →
            c ∉ cfg2.includedFiles →
            (fun c f o => parseIncludeF fsys false rootName n c f o) cfg2
              (file_t.mk c [] .I_EXPENDED ang2) o = .ok cfg3 t3 o3 →
            (expNamesF [t3]).Nodup ∧
              ∀ x ∈ expNamesF [t3], x ∈ cfg3.includedFiles ∧ x ∉ cfg2.includedFiles :=
          fun cfg2 c ang2 o cfg3 t3 o3 hP2 hc hr =>
            ih cfg2 c .I_EXPENDED ang2 o cfg3 t3 o3 hP2 hc hr
        have hPrec : (Config.mk cfg.includePaths
            (insertSet cfg.includedFiles (file_t.mk nm [] st ang).name)).includePaths = P :=
          hcfgP
        obtain ⟨added, hk, hnd, hmem⟩ := processLines_inv _ fsys _ P
          (fun c f o c2 f2 o2 hr => parseIncludeF_mono fsys false rootName n c f o c2 f2 o2 hr)
          (fun c f o c2 f2 o2 hr => parseIncludeF_paths fsys false rootName n c f o c2 f2 o2 hr)
          hsp hrec' _ _ _ _ _ _ _ hPrec heq
        simp only [file_t.includeFiles, List.nil_append] at hk
        have hmono : incSub { cfg with includedFiles := insertSet cfg.includedFiles nm } cfg' := by
          have hm := processLines_mono _ fsys false _
            (fun c f o c2 f2 o2 hr => parseIncludeF_mono fsys false rootName n c f o c2 f2 o2 hr)
            _ _ _ _ _ _ _ heq
          simpa [file_t.name] using hm
        have hmem' : ∀ x ∈ expNamesF added,
            x ∈ cfg'.includedFiles ∧ x ∉ insertSet cfg.includedFiles nm := hmem
        constructor
        · simp only [file_t.name, file_t.state, file_t.is_angle]
          rw [expNamesF_single, hk]
          by_cases hst : st = include_state_t.I_EXPENDED
          · rw [if_pos hst]
            refine List.Nodup.append (by simp) hnd ?_
            intro x hx1 hx2
            simp only [List.mem_singleton] at hx1
            subst hx1
            exact (hmem' x hx2).2 (mem_insertSet_self _ _)
          · rw [if_neg hst]
            simpa using hnd
        · intro x hx
          simp only [file_t.name, file_t.state, file_t.is_angle] at hx
          rw [expNamesF_single, hk, List.mem_append] at hx
          rcases hx with hx | hx
          · have hxnm : x = nm := by
              by_cases hst : st = include_state_t.I_EXPENDED
              · rw [if_pos hst] at hx
                simpa using hx
              · rw [if_neg hst] at hx
                simp at hx
            subst hxnm
            exact ⟨hmono x (mem_insertSet_self _ _), hnm⟩
          · exact ⟨(hmem' x hx).1,
              fun hcx => (hmem' x hx).2 (mem_insertSet_of_mem _ _ _ hcx)⟩
      · cases h
      · cases h

/-! ## All-mode: the suppression branch is unreachable -/

/-- With `include_all` on, the condition of line 336 is never satisfied,
so every matched candidate is recursed into and every child created by
the probe loop has status `I_EXPENDED` — no visit is ever suppressed. -/
theorem processDirs_all_mode (rec : Config → file_t → Str → PIRes) (fsys : FSys)
    (tok : Str) (ang : Bool)
    (hrec_state : ∀ cfg c ks ang2 o cfg2 t2 o2,
      rec cfg (file_t.mk c ks .I_EXPENDED ang2) o = .ok cfg2 t2 o2 →
      t2.state = .I_EXPENDED) :
    ∀ ps cfg kids content found lastSt tempKids cfg' kids' content' found' lastSt' tempKids',
      processDirs rec fsys true tok ang ps cfg kids content found lastSt tempKids =
        .ok cfg' kids' content' found' lastSt' tempKids' →
      ∃ added, kids' = kids ++ added ∧ ∀ t ∈ added, t.state = .I_EXPENDED := by
  intro ps
  induction ps with
  | nil =>
    intro cfg kids content found lastSt tempKids cfg' kids' content' found' lastSt' tempKids' h
    cases h
    exact ⟨[], by simp, by simp⟩
  | cons p ps ih =>
    intro cfg kids content found lastSt tempKids cfg' kids' content' found' lastSt' tempKids' h
    simp only [processDirs] at h
    split at h
    · split at h
      · rename_i hcond
        exact absurd hcond (by simp)
      · split at h
        · rename_i cfg2 t2 o2 heq
          obtain ⟨added, hk, hst⟩ := ih _ _ _ _ _ _ _ _ _ _ _ _ h
          refine ⟨t2 :: added, by rw [hk]; simp, ?_⟩
          intro t ht
          rcases List.mem_cons.mp ht with rfl | ht
          · exact hrec_state _ _ _ _ _ _ _ _ heq
          · exact hst t ht
        · cases h
        · cases h
    · exact ih _ _ _ _ _ _ _ _ _ _ _ _ h

/-! ## Concrete scenario file systems

Paths are plain strings; `canon` is the identity except where a
scenario needs two probe paths to resolve to the same canonical file. -/

/-- Root `/r/a.h` includes `"b.h"` twice; `/r/b.h` holds one line. -/
def fsysTwice : FSys :=
  { isFile := fun p => p == "/r/a.h".toList || p == "/r/b.h".toList
    canon := fun p => p
    readF := fun p =>
      if p = "/r/a.h".toList then some "#include \"b.h\"\n#include \"b.h\"\n".toList
      else if p = "/r/b.h".toList then some "int x;\n".toList
      else none }

/-- Cyclic graph: `/r/a.h` includes `"b.h"`, `/r/b.h` includes `"a.h"`. -/
def fsysCycle : FSys :=
  { isFile := fun p => p == "/r/a.h".toList || p == "/r/b.h".toList
    canon := fun p => p
    readF := fun p =>
      if p = "/r/a.h".toList then some "#include \"b.h\"\n".toList
      else if p = "/r/b.h".toList then some "#include \"a.h\"\n".toList
      else none }

/-- `h.h` exists in both supplied search directories `/d1` and `/d2`,
with the same one-line body; the root angle-includes it. -/
def fsysDup : FSys :=
  { isFile := fun p => p == "/r/a.h".toList || p == "/d1/h.h".toList || p == "/d2/h.h".toList
    canon := fun p => p
    readF := fun p =>
      if p = "/r/a.h".toList then some "#include <h.h>\n".toList
      else if p = "/d1/h.h".toList then some "int x;\n".toList
      else if p = "/d2/h.h".toList then some "int x;\n".toList
      else none }

/-- `/r/b.h` exists as a regular file but cannot be opened for reading. -/
def fsysOpenFail : FSys :=
  { isFile := fun p => p == "/r/a.h".toList || p == "/r/b.h".toList
    canon := fun p => p
    readF := fun p =>
      if p = "/r/a.h".toList then some "#include \"b.h\"\n".toList
      else none }

/-- `h.h` exists in both supplied search directories `/d1` and `/d2`
with different bodies; `/d1/h.h` itself includes `"g.h"`, which resolves
in `/d2`.  The root's quote directive for `h.h` thus matches two
candidate directories, and because lines 308/341/345 of `main.cpp`
reuse the `temp` node across the directory loop without clearing
`temp.includeFiles`, the second pushed child carries the first match's
expanded subtree. -/
def fsysQuirk : FSys :=
  { isFile := fun p => p == "/r/a.h".toList || p == "/d1/h.h".toList ||
      p == "/d2/h.h".toList || p == "/d2/g.h".toList
    canon := fun p => p
    readF := fun p =>
      if p = "/r/a.h".toList then some "#include \"h.h\"\n".toList
      else if p = "/d1/h.h".toList then some "#include \"g.h\"\n".toList
      else if p = "/d2/h.h".toList then some "int y;\n".toList
      else if p = "/d2/g.h".toList then some "int g;\n".toList
      else none }

/-- C1 (corrected): with `includeAllMode` off, once-only expansion does
NOT hold unconditionally: `main.cpp` declares `temp` once per directive
(line 308) and reuses it across the directory loop without clearing
`temp.includeFiles`, so when a directive matches in two candidate
directories the second pushed child (line 345) still carries the first
match's expanded subtree.  In `fsysQuirk`, `h.h` resolves under both
supplied search directories and `/d1/h.h` includes `"g.h"`: the result
tree then lists `/d2/g.h` as expanded at two sites, refuting the
universal duplicate-free property of the claim as stated. -/
theorem claim_C1_once_only_counterexample :
    ("/r/a.h".toList ∉ (Config.mk ["/d1".toList, "/d2".toList] []).includedFiles) ∧
    parseIncludeF fsysQuirk false "/r/a.h".toList 5 ⟨["/d1".toList, "/d2".toList], []⟩
        (file_t.mk "/r/a.h".toList [] .I_EXPENDED false) [] =
      .ok ⟨["/d1".toList, "/d2".toList],
          ["/r/a.h".toList, "/d1/h.h".toList, "/d2/g.h".toList, "/d2/h.h".toList]⟩
        (file_t.mk "/r/a.h".toList
          [file_t.mk "/d1/h.h".toList
            [file_t.mk "/d2/g.h".toList [] .I_EXPENDED false] .I_EXPENDED false,
           file_t.mk "/d2/h.h".toList
            [file_t.mk "/d2/g.h".toList [] .I_EXPENDED false] .I_EXPENDED false]
          .I_EXPENDED false)
        ("// #include \"h.h\"\n// #include \"g.h\"\nint g;\n\n// End #include \"g.h\"\n\n" ++
         "int y;\n\n// End #include \"h.h\"\n\n").toList ∧
    ¬ (expNamesF [file_t.mk "/r/a.h".toList
          [file_t.mk "/d1/h.h".toList
            [file_t.mk "/d2/g.h".toList [] .I_EXPENDED false] .I_EXPENDED false,
           file_t.mk "/d2/h.h".toList
            [file_t.mk "/d2/g.h".toList [] .I_EXPENDED false] .I_EXPENDED false]
          .I_EXPENDED false]).Nodup :=
  ⟨by decide, rfl, by simp only [expNamesF]; decide⟩

/-- C1 (amended): with `includeAllMode` off, a header reached twice
(directly or transitively) is expanded only once, PROVIDED no filename
resolves as a regular file under more than one candidate directory of
any search list (the including file's own directory followed by the
supplied include paths) — then each directive matches at most once, the
reused `temp` node never carries a stale subtree, and in any successful
run the expanded-node names of the result tree are duplicate-free.
Second conjunct (scenario): a root including `"b.h"` twice yields the
body once; the second site becomes the single omission comment line and
a child node with status `I_ALREADY_INCLUDED` and no subtree. -/
theorem claim_C1_once_only :
    (∀ (fsys : FSys) (rootName : Str) (P : List Str),
      (∀ d tok, ((d :: P).countP (fun p => fsys.isFile (joinPath p tok))) ≤ 1) →
      ∀ (n : Nat) (cfg : Config) (nm : Str) (st : include_state_t) (ang : Bool)
        (out : Str) (cfg' : Config) (t' : file_t) (o' : Str),
      cfg.includePaths = P →
      nm ∉ cfg.includedFiles →
      parseIncludeF fsys false rootName n cfg (file_t.mk nm [] st ang) out = .ok cfg' t' o' →
      (expNamesF [t']).Nodup) ∧
    parseIncludeF fsysTwice false "/r/a.h".toList 5 ⟨[], []⟩
        (file_t.mk "/r/a.h".toList [] .I_EXPENDED false) [] =
      .ok ⟨[], ["/r/a.h".toList, "/r/b.h".toList]⟩
        (file_t.mk "/r/a.h".toList
          [file_t.mk "/r/b.h".toList [] .I_EXPENDED false,
           file_t.mk "/r/b.h".toList [] .I_ALREADY_INCLUDED false]
          .I_EXPENDED false)
        ("// #include \"b.h\"\nint x;\n\n// End #include \"b.h\"\n" ++
         "// #include \"b.h\" (omitted because it has been expended)\n\n").toList :=
  ⟨fun fsys rootName P H n cfg nm st ang out cfg' t' o' hP hnm h =>
      (parseIncludeF_inv fsys rootName P H n cfg nm st ang out cfg' t' o' hP hnm h).1,
    rfl⟩

theorem claim_C1_once_only_witness :
    (∀ d tok, ((d :: ([] : List Str)).countP
        (fun p => fsysTwice.isFile (joinPath p tok))) ≤ 1) ∧
    ("/r/a.h".toList ∉ ([] : List Str)) ∧
    (expNamesF [file_t.mk "/r/a.h".toList
        [file_t.mk "/r/b.h".toList [] .I_EXPENDED false,
         file_t.mk "/r/b.h".toList [] .I_ALREADY_INCLUDED false]
        .I_EXPENDED false]).Nodup :=
  ⟨fun d tok => List.countP_le_length _,
   by decide,
   claim_C1_once_only.1 fsysTwice "/r/a.h".toList []
     (fun d tok => List.countP_le_length _) 5 ⟨[], []⟩ "/r/a.h".toList
     .I_EXPENDED false [] _ _ _ rfl (by decide) claim_C1_once_only.2⟩

/-- C2: with `includeAllMode` off the expansion terminates on every
include graph.  First conjunct (universal): any fuel exceeding the
number of files not yet in `includedFiles` is never exhausted, because
each recursive call is guarded by the line-336 membership test and each
opened file is recorded before its body is scanned.  Second conjunct
(scenario): on the two-file cycle `a.h ↔ b.h` the run completes and the
back-edge to the root is classified `I_ALREADY_INCLUDED`. -/
theorem claim_C2_termination :
    (∀ (fsys : FSys) (rootName : Str) (files : Finset Str),
      (∀ p, fsys.isFile p = true → fsys.canon p ∈ files) →
      ∀ n cfg file out, residual files (insertSet cfg.includedFiles file.name) < n →
        parseIncludeF fsys false rootName n cfg file out ≠ .nofuel) ∧
    parseIncludeF fsysCycle false "/r/a.h".toList 3 ⟨[], []⟩
        (file_t.mk "/r/a.h".toList [] .I_EXPENDED false) [] =
      .ok ⟨[], ["/r/a.h".toList, "/r/b.h".toList]⟩
        (file_t.mk "/r/a.h".toList
          [file_t.mk "/r/b.h".toList
            [file_t.mk "/r/a.h".toList [] .I_ALREADY_INCLUDED false]
            .I_EXPENDED false]
          .I_EXPENDED false)
        ("// #include \"b.h\"\n// #include \"a.h\" (omitted because it has been expended)\n" ++
         "\n// End #include \"b.h\"\n\n").toList :=
  ⟨fun fsys rootName files hcoh => parseIncludeF_ne_nofuel fsys rootName files hcoh, rfl⟩

theorem claim_C2_termination_witness :
    (∀ p, fsysCycle.isFile p = true →
      fsysCycle.canon p ∈ ({"/r/a.h".toList, "/r/b.h".toList} : Finset Str)) ∧
    residual {"/r/a.h".toList, "/r/b.h".toList}
      (insertSet [] (file_t.mk "/r/a.h".toList [] .I_EXPENDED false).name) < 3 ∧
    parseIncludeF fsysCycle false "/r/a.h".toList 3 ⟨[], []⟩
      (file_t.mk "/r/a.h".toList [] .I_EXPENDED false) [] ≠ .nofuel := by
  have hcoh : ∀ p, fsysCycle.isFile p = true →
      fsysCycle.canon p ∈ ({"/r/a.h".toList, "/r/b.h".toList} : Finset Str) := by
    intro p hp
    have hp' : p = "/r/a.h".toList ∨ p = "/r/b.h".toList := by
      simpa [fsysCycle] using hp
    rcases hp' with rfl | rfl <;> simp [fsysCycle]
  have hres : residual {"/r/a.h".toList, "/r/b.h".toList}
      (insertSet [] (file_t.mk "/r/a.h".toList [] .I_EXPENDED false).name) < 3 := by decide
  exact ⟨hcoh, hres,
    claim_C2_termination.1 fsysCycle "/r/a.h".toList _ hcoh 3 ⟨[], []⟩
      (file_t.mk "/r/a.h".toList [] .I_EXPENDED false) [] hres⟩

/-- C3: the probe loop of lines 329-347 visits every candidate
directory even after a match.  First conjunct (universal): a successful
loop appends exactly one child node per matching directory, over the
whole candidate list.  Second conjunct (scenario): with the same
filename present in both supplied directories and once-only suppression
disabled, one directive produces two child nodes and both bodies are
inlined. -/
theorem claim_C3_probe_all :
    (∀ (rec : Config → file_t → Str → PIRes) (fsys : FSys) (ia : Bool) (tok : Str) (ang : Bool)
        (ps : List Str) (cfg : Config) (kids : List file_t) (content : Str) (found : Bool)
        (lastSt : include_state_t) (tempKids : List file_t) (cfg' : Config)
        (kids' : List file_t) (content' : Str) (found' : Bool)
        (lastSt' : include_state_t) (tempKids' : List file_t),
      processDirs rec fsys ia tok ang ps cfg kids content found lastSt tempKids =
        .ok cfg' kids' content' found' lastSt' tempKids' →
      kids'.length = kids.length + ps.countP (fun p => fsys.isFile (joinPath p tok))) ∧
    parseIncludeF fsysDup true "/r/a.h".toList 5 ⟨["/d1".toList, "/d2".toList], []⟩
        (file_t.mk "/r/a.h".toList [] .I_EXPENDED false) [] =
      .ok ⟨["/d1".toList, "/d2".toList],
          ["/r/a.h".toList, "/d1/h.h".toList, "/d2/h.h".toList]⟩
        (file_t.mk "/r/a.h".toList
          [file_t.mk "/d1/h.h".toList [] .I_EXPENDED true,
           file_t.mk "/d2/h.h".toList [] .I_EXPENDED true]
          .I_EXPENDED false)
        ("// #include <h.h>\nint x;\n\nint x;\n\n// End #include <h.h>\n\n").toList :=
  ⟨fun rec fsys ia tok ang ps cfg kids content found lastSt tempKids
      cfg' kids' content' found' lastSt' tempKids' h =>
      processDirs_count rec fsys ia tok ang ps cfg kids content found lastSt tempKids
        cfg' kids' content' found' lastSt' tempKids' h,
    rfl⟩

theorem claim_C3_probe_all_witness :
    processDirs (fun c f o => PIRes.ok c f o) fsysDup true "h.h".toList true
        ["/d1".toList, "/d2".toList] ⟨[], []⟩ [] [] false .I_EXPENDED [] =
      .ok ⟨[], []⟩
        [file_t.mk "/d1/h.h".toList [] .I_EXPENDED true,
         file_t.mk "/d2/h.h".toList [] .I_EXPENDED true]
        [] true .I_EXPENDED [] ∧
    ([file_t.mk "/d1/h.h".toList [] .I_EXPENDED true,
      file_t.mk "/d2/h.h".toList [] .I_EXPENDED true] : List file_t).length =
      ([] : List file_t).length +
        List.countP (fun p => fsysDup.isFile (joinPath p "h.h".toList))
          ["/d1".toList, "/d2".toList] :=
  ⟨rfl,
    claim_C3_probe_all.1 (fun c f o => PIRes.ok c f o) fsysDup true "h.h".toList true
      ["/d1".toList, "/d2".toList] ⟨[], []⟩ [] [] false .I_EXPENDED []
      _ _ _ _ _ _ rfl⟩

/-- C4: a found include file that cannot be opened aborts the run and
nothing is written — but the file-error message names the ROOT input
file (`config.file.name`, line 293 of `main.cpp`), not the file that
failed to open.  Here `/r/b.h` is the unopenable file, yet the error
text reads `Cannot open file /r/a.h`, and the run's output is `none`
(nothing written). -/
theorem claim_C4_open_failure_eval :
    fsysOpenFail.isFile "/r/b.h".toList = true ∧
    fsysOpenFail.readF "/r/b.h".toList = none ∧
    fsysOpenFail.readF "/r/a.h".toList ≠ none ∧
    parseIncludeF fsysOpenFail false "/r/a.h".toList 5 ⟨[], []⟩
        (file_t.mk "/r/a.h".toList [] .I_EXPENDED false) [] =
      .err ⟨.E_FILE_ERROR, "Cannot open file /r/a.h".toList⟩ ∧
    runSingleInclude fsysOpenFail false [] "/r/a.h".toList 5 = none :=
  ⟨rfl, rfl, by decide, rfl, rfl⟩

/-- C5: a line is an include directive iff it has the §4.1 shape
(first conjunct: the code's regex matching coincides with the spec
grammar `ws* # ws* include ws* ⟨delim⟩ token ⟨delim⟩ ws*`), and every
non-matching line is appended to the output byte-identically followed
by its newline (second conjunct). -/
theorem claim_C5_directive_grammar :
    (∀ cs : Str, regexIncludeMatchL cs = true ↔ specIncludeShape cs) ∧
    (∀ (rec : Config → file_t → Str → PIRes) (fsys : FSys) (ia : Bool) (sp : List Str)
        (line : Str) (rest : List Str) (cfg : Config) (kids : List file_t) (out : Str)
        (cfg' : Config) (kids' : List file_t) (out' : Str),
      regexIncludeMatchL line = false →
      processLines rec fsys ia sp (line :: rest) cfg kids out = .ok cfg' kids' out' →
      ∃ s, out' = out ++ line ++ '\n' :: s) :=
  ⟨regexIncludeMatch_iff_shape,
    fun rec fsys ia sp line rest cfg kids out cfg' kids' out' hline h => by
      rw [processLines_plain_step rec fsys ia sp line rest cfg kids out hline] at h
      obtain ⟨s, hs⟩ := processLines_out_append rec fsys ia sp rest cfg kids _ _ _ _ h
      exact ⟨s, by rw [hs]; simp [List.append_assoc]⟩⟩

theorem claim_C5_directive_grammar_witness :
    regexIncludeMatchL "int x; // include".toList = false ∧
    (∃ s, "int x; // include\n".toList =
      ([] : Str) ++ "int x; // include".toList ++ '\n' :: s) :=
  ⟨by decide,
    claim_C5_directive_grammar.2 (fun _ _ _ => PIRes.nofuel) fsysTwice false []
      "int x; // include".toList [] ⟨[], []⟩ [] [] _ _ _ (by decide) rfl⟩

/-- C7 counterexample: on the directive line `#include <a"b>` — whose
§4.1 decomposition carries the token text `a"b` between `<` and the
matching `>` — the spec's extraction rule (stop at whitespace or the
MATCHING closing delimiter, `specTokenAfterOpen`) yields `a"b`, but the
code's loop (line 321) also stops at the OTHER delimiter character `"`
and yields `a`. -/
theorem claim_C7_token_counterexample :
    ("#include <a\"b>").toList =
      [] ++ '#' :: ([] ++ (includeWord ++
        ([' '] ++ delimOpen true :: ("a\"b".toList ++ delimClose true :: [])))) ∧
    regexIncludeMatchL "#include <a\"b>".toList = true ∧
    specTokenAfterOpen true ("a\"b".toList ++ delimClose true :: []) = "a\"b".toList ∧
    extractToken "#include <a\"b>".toList = "a".toList ∧
    ("a".toList : Str) ≠ "a\"b".toList :=
  ⟨by decide, by decide, by decide, by decide, by decide⟩

/-- C7 amended: for every include directive line, the extracted token
is the literal text that follows the opening delimiter after skipping
the whitespace right after it, up to the first of: whitespace, `>`, or
`"` — either delimiter character, not only the matching one; no escape
processing is performed. -/
theorem claim_C7_token_amended (ang : Bool) (w1 w2 w3 mid w4 : Str)
    (hw1 : WsList w1) (hw2 : WsList w2) (hw3 : WsList w3) :
    extractToken
        (w1 ++ '#' :: (w2 ++ (includeWord ++ (w3 ++ delimOpen ang :: (mid ++ delimClose ang :: w4))))) =
      ((mid ++ delimClose ang :: w4).dropWhile isSpaceC).takeWhile
        (fun c => !(c == '>' || c == '"' || isSpaceC c)) :=
  extractToken_of_shape ang w1 w2 w3 mid w4 hw1 hw2 hw3

theorem claim_C7_token_amended_witness :
    WsList [' '] ∧ extractToken "# include \" x.h\"".toList = "x.h".toList := by
  have hw : WsList [' '] := by decide
  refine ⟨hw, ?_⟩
  have h := claim_C7_token_amended false [] [' '] [' '] " x.h".toList []
    (by decide) hw hw
  exact h.trans (by decide)

/-- C8: an include directive whose token matches no regular file in any
candidate directory appends one child node with status `I_NOT_FOUND`
(named by the raw token) and copies the directive line unchanged, plus
its newline, to the output (lines 348-353). -/
theorem claim_C8_not_found :
    ∀ (rec : Config → file_t → Str → PIRes) (fsys : FSys) (ia : Bool) (sp : List Str)
      (line : Str) (rest : List Str) (cfg : Config) (kids : List file_t) (out : Str),
      regexIncludeMatchL line = true →
      (∀ p ∈ sp, fsys.isFile (joinPath p (extractToken line)) = false) →
      processLines rec fsys ia sp (line :: rest) cfg kids out =
        processLines rec fsys ia sp rest cfg
          (kids ++ [file_t.mk (extractToken line) [] .I_NOT_FOUND (regexSystemMatchL line)])
          (out ++ line ++ ['\n']) :=
  fun rec fsys ia sp line rest cfg kids out hline hnone =>
    processLines_notfound_step rec fsys ia sp line rest cfg kids out hline hnone

theorem claim_C8_not_found_witness :
    regexIncludeMatchL "#include <stdio.h>".toList = true ∧
    (∀ p ∈ ["/d1".toList],
      fsysTwice.isFile (joinPath p (extractToken "#include <stdio.h>".toList)) = false) ∧
    processLines (fun _ _ _ => PIRes.nofuel) fsysTwice false ["/d1".toList]
        ["#include <stdio.h>".toList] ⟨[], []⟩ [] [] =
      processLines (fun _ _ _ => PIRes.nofuel) fsysTwice false ["/d1".toList] [] ⟨[], []⟩
        ([] ++ [file_t.mk (extractToken "#include <stdio.h>".toList) [] .I_NOT_FOUND
          (regexSystemMatchL "#include <stdio.h>".toList)])
        ([] ++ "#include <stdio.h>".toList ++ ['\n']) :=
  ⟨by decide, by decide,
    claim_C8_not_found (fun _ _ _ => PIRes.nofuel) fsysTwice false ["/d1".toList]
      "#include <stdio.h>".toList [] ⟨[], []⟩ [] [] (by decide) (by decide)⟩

/-- C9: with `includeAllMode` on the once-only suppression is disabled.
First conjunct (universal): every child the probe loop creates in
all-mode has status `I_EXPENDED` — the `I_ALREADY_INCLUDED` branch of
line 336 is unreachable, so every resolvable include is re-expanded at
every site.  Second conjunct (scenario): the header included twice has
its body inlined twice, once per directive site. -/
theorem claim_C9_all_mode :
    (∀ (fsys : FSys) (rootName : Str) (n : Nat) (tok : Str) (ang : Bool)
        (ps : List Str) (cfg : Config) (kids : List file_t) (content : Str) (found : Bool)
        (lastSt : include_state_t) (tempKids : List file_t) (cfg' : Config)
        (kids' : List file_t) (content' : Str) (found' : Bool)
        (lastSt' : include_state_t) (tempKids' : List file_t),
      processDirs (fun c f o => parseIncludeF fsys true rootName n c f o) fsys true tok ang
          ps cfg kids content found lastSt tempKids =
        .ok cfg' kids' content' found' lastSt' tempKids' →
      ∃ added, kids' = kids ++ added ∧ ∀ t ∈ added, t.state = .I_EXPENDED) ∧
    parseIncludeF fsysTwice true "/r/a.h".toList 5 ⟨[], []⟩
        (file_t.mk "/r/a.h".toList [] .I_EXPENDED false) [] =
      .ok ⟨[], ["/r/a.h".toList, "/r/b.h".toList]⟩
        (file_t.mk "/r/a.h".toList
          [file_t.mk "/r/b.h".toList [] .I_EXPENDED false,
           file_t.mk "/r/b.h".toList [] .I_EXPENDED false]
          .I_EXPENDED false)
        ("// #include \"b.h\"\nint x;\n\n// End #include \"b.h\"\n" ++
         "// #include \"b.h\"\nint x;\n\n// End #include \"b.h\"\n\n").toList :=
  ⟨fun fsys rootName n tok ang ps cfg kids content found lastSt tempKids
      cfg' kids' content' found' lastSt' tempKids' h =>
      processDirs_all_mode _ fsys tok ang
        (fun cfg2 c ks ang2 o cfg3 t3 o3 hr => by
          obtain ⟨kids3, ht⟩ := parseIncludeF_shape fsys true rootName n cfg2
            (file_t.mk c ks .I_EXPENDED ang2) o cfg3 t3 o3 hr
          rw [ht]
          rfl)
        ps cfg kids content found lastSt tempKids
        cfg' kids' content' found' lastSt' tempKids' h,
    rfl⟩

theorem claim_C9_all_mode_witness :
    processDirs (fun c f o => parseIncludeF fsysTwice true "/r/a.h".toList 4 c f o)
        fsysTwice true "b.h".toList false ["/r".toList] ⟨[], ["/r/a.h".toList]⟩ [] []
        false .I_EXPENDED [] =
      .ok ⟨[], ["/r/a.h".toList, "/r/b.h".toList]⟩
        [file_t.mk "/r/b.h".toList [] .I_EXPENDED false]
        "int x;\n\n".toList true .I_EXPENDED [] ∧
    (∃ added, [file_t.mk "/r/b.h".toList [] .I_EXPENDED false] = [] ++ added ∧
      ∀ t ∈ added, t.state = .I_EXPENDED) :=
  ⟨rfl,
    claim_C9_all_mode.1 fsysTwice "/r/a.h".toList 4 "b.h".toList false ["/r".toList]
      ⟨[], ["/r/a.h".toList]⟩ [] [] false .I_EXPENDED [] _ _ _ _ _ _ rfl⟩

/-- C10: the line-reading loop appends one line plus a newline per
`getline` call until eof.  Conjuncts: the loop's line list is exactly
the split of the contents on `\n`; its length is the newline count plus
one; contents ending in a newline yield one extra, empty, final line;
and a directive-free file contributes exactly each of those lines
followed by a newline to the output. -/
theorem claim_C10_getline_loop :
    (∀ cs : Str, readLines cs = splitLines cs) ∧
    (∀ cs : Str, (readLines cs).length = cs.count '\n' + 1) ∧
    (∀ xs : Str, readLines (xs ++ ['\n']) = readLines xs ++ [[]]) ∧
    (∀ (rec : Config → file_t → Str → PIRes) (fsys : FSys) (ia : Bool) (sp : List Str)
        (lines : List Str) (cfg : Config) (kids : List file_t) (out : Str),
      (∀ l ∈ lines, regexIncludeMatchL l = false) →
      processLines rec fsys ia sp lines cfg kids out =
        .ok cfg kids (out ++ (lines.map (fun l => l ++ ['\n'])).flatten)) := by
  refine ⟨readLines_eq_split, ?_, ?_, ?_⟩
  · intro cs
    rw [readLines_eq_split]
    exact splitLines_length cs
  · intro xs
    rw [readLines_eq_split, readLines_eq_split]
    exact splitLines_append_newline xs
  · exact fun rec fsys ia sp lines cfg kids out hall =>
      processLines_all_plain rec fsys ia sp lines cfg kids out hall

theorem claim_C10_getline_loop_witness :
    (∀ l ∈ readLines "int x;\n".toList, regexIncludeMatchL l = false) ∧
    processLines (fun _ _ _ => PIRes.nofuel) fsysTwice false [] (readLines "int x;\n".toList)
        ⟨[], []⟩ [] [] =
      .ok ⟨[], []⟩ [] "int x;\n\n".toList :=
  ⟨by decide,
    (claim_C10_getline_loop.2.2.2 (fun _ _ _ => PIRes.nofuel) fsysTwice false []
      (readLines "int x;\n".toList) ⟨[], []⟩ [] [] (by decide)).trans rfl⟩


end SingleInclude
